import Mathlib

/-!
Verification development for the graphqomb-studio backend translation layer
(`src/backend/src/models/dto.py`, `src/backend/src/services/converter.py`,
`src/backend/src/routers/*.py`).

The Python code is shallowly embedded: Pydantic DTO classes become Lean
structures, Python `dict`s become association lists with Python insertion
semantics (update in place when the key exists, append otherwise), real-valued
fields that the layer only passes through (coordinates, angle coefficients)
are modelled over `Int`, and fallible Python code (attribute errors, key
errors, HTTP exceptions) returns `Except`.  The external graphqomb engine is
not part of the repository; the few engine entry points the layer touches are
modelled from the spec and marked as such.
-/

set_option autoImplicit false
set_option linter.unusedSectionVars false

namespace GraphQomb

/-! ### Python-style lexicographic string comparison

Python compares strings lexicographically by code point; `sorted [s, t]`
swaps the two strings exactly when `t < s` (sorting is stable). -/

/-- Lexicographic strict comparison of character lists by code point,
mirroring Python string comparison. -/
def lexLt : List Char → List Char → Bool
  | [], [] => false
  | [], _ :: _ => true
  | _ :: _, [] => false
  | a :: as, b :: bs => a < b || (a = b && lexLt as bs)

/-- Embedding of `normalize_edge_id` (dto.py): sort the two endpoint ids
lexicographically (Python `sorted`, stable) and join with `"-"`. -/
def normalize_edge_id (source target : String) : String :=
  if lexLt target.data source.data then target ++ "-" ++ source
  else source ++ "-" ++ target

/-- Helper for `splitOnHyphen`: `acc` holds the current fragment reversed. -/
def splitAux : List Char → List Char → List String
  | [], acc => [String.mk acc.reverse]
  | c :: cs, acc =>
    if c = '-' then String.mk acc.reverse :: splitAux cs []
    else splitAux cs (c :: acc)

/-- Embedding of Python `edge_id.split("-")` for the single-character
separator used by the schedule translator. -/
def splitOnHyphen (s : String) : List String :=
  splitAux s.data []

/-- A string free of the edge-id separator character. -/
def hyphenFree (s : String) : Prop := '-' ∉ s.data

instance (s : String) : Decidable (hyphenFree s) := by
  unfold hyphenFree; infer_instance

/-! ### Python dict model

The converters build fresh `dict`s by iterating and assigning.  A Python
`dict` assignment `d[k] = v` keeps the position of an existing key and
overwrites its value, and appends a fresh key at the end. -/

/-- Python `d[k]` / `k in d` on an association list (first matching key). -/
def pyLookup {α β : Type} [DecidableEq α] : List (α × β) → α → Option β
  | [], _ => none
  | (k, v) :: rest, k' => if k = k' then some v else pyLookup rest k'

/-- Python `k in d`. -/
def hasKey {α β : Type} [DecidableEq α] (d : List (α × β)) (k : α) : Bool :=
  (pyLookup d k).isSome

/-- Python `d[k] = v`: update in place if the key exists, append otherwise. -/
def pyDictInsert {α β : Type} [DecidableEq α] (d : List (α × β)) (k : α) (v : β) :
    List (α × β) :=
  if hasKey d k then d.map (fun p => if p.1 = k then (k, v) else p)
  else d ++ [(k, v)]

/-- The key list of an association list. -/
def dkeys {α β : Type} (d : List (α × β)) : List α := d.map Prod.fst

/-- A Python loop of the shape
`for k, v in src.items(): if ok: dst[f k v] = g k v`, building a fresh dict
from an entry transformer that may drop entries. -/
def dmap {α β γ δ : Type} [DecidableEq γ]
    (g : α × β → Option (γ × δ)) (l : List (α × β)) : List (γ × δ) :=
  l.foldl (fun acc p =>
    match g p with
    | some q => pyDictInsert acc q.1 q.2
    | none => acc) []

/-! ### Data model (dto.py) -/

/-- `CoordinateDTO = Coordinate3D | Coordinate2D` (3D tried first by the
parser).  Real-valued components are modelled over `Int`; the layer never
computes with them. -/
inductive CoordinateDTO : Type
  | dim3 (x y z : Int)
  | dim2 (x y : Int)
deriving DecidableEq, Repr

/-- Measurement plane of `PlannerMeasBasisDTO`. -/
inductive MeasPlane : Type
  | XY
  | YZ
  | XZ
deriving DecidableEq, Repr

/-- Pauli axis of `AxisMeasBasisDTO`. -/
inductive MeasAxis : Type
  | X
  | Y
  | Z
deriving DecidableEq, Repr

/-- Sign of `AxisMeasBasisDTO`. -/
inductive MeasSign : Type
  | PLUS
  | MINUS
deriving DecidableEq, Repr

/-- `MeasBasisDTO = PlannerMeasBasisDTO | AxisMeasBasisDTO`.  The angle
coefficient (a turn fraction, real-valued) is modelled over `Int`; the layer
only passes it through. -/
inductive MeasBasisDTO : Type
  | planner (plane : MeasPlane) (angleCoeff : Int)
  | axis (a : MeasAxis) (s : MeasSign)
deriving DecidableEq, Repr

/-- Node role literal of `GraphNodeDTO`. -/
inductive NodeRole : Type
  | input
  | output
  | intermediate
deriving DecidableEq, Repr

/-- `GraphNodeDTO` fields. -/
structure GraphNodeDTO : Type where
  id : String
  coordinate : CoordinateDTO
  role : NodeRole
  measBasis : Option MeasBasisDTO := none
  qubitIndex : Option Int := none
deriving DecidableEq, Repr

/-- Embedding of `GraphNodeDTO.validate_role_requirements` (dto.py): the
cross-field role/measBasis/qubitIndex check run by Pydantic after parsing. -/
def validate_role_requirements (n : GraphNodeDTO) : Except String GraphNodeDTO :=
  match n.role with
  | .input =>
    if n.measBasis = none then .error "input node requires measBasis"
    else if n.qubitIndex = none then .error "input node requires qubitIndex"
    else .ok n
  | .output =>
    if n.measBasis ≠ none then .error "output node must not have measBasis"
    else if n.qubitIndex = none then .error "output node requires qubitIndex"
    else .ok n
  | .intermediate =>
    if n.measBasis = none then .error "intermediate node requires measBasis"
    else if n.qubitIndex ≠ none then .error "intermediate node must not have qubitIndex"
    else .ok n

/-- `GraphEdgeDTO` fields. -/
structure GraphEdgeDTO : Type where
  id : String
  source : String
  target : String
deriving DecidableEq, Repr

/-- Embedding of `GraphEdgeDTO.validate_edge_id` (dto.py): the edge id must
equal the normalized id of its endpoints. -/
def validate_edge_id (e : GraphEdgeDTO) : Except String GraphEdgeDTO :=
  if e.id ≠ normalize_edge_id e.source e.target then
    .error "Edge id must be normalized"
  else .ok e

/-- The `zflow` field of `FlowDefinitionDTO`: a dict or the literal "auto". -/
inductive ZFlowDTO : Type
  | auto
  | manual (zf : List (String × List String))
deriving DecidableEq, Repr

/-- `FlowDefinitionDTO` fields.  Wire dicts are association lists. -/
structure FlowDefinitionDTO : Type where
  xflow : List (String × List String)
  zflow : ZFlowDTO
deriving DecidableEq, Repr

/-- `ProjectPayloadDTO` fields. -/
structure ProjectPayloadDTO : Type where
  name : String
  dimension : Nat
  nodes : List GraphNodeDTO
  edges : List GraphEdgeDTO
  flow : FlowDefinitionDTO
deriving DecidableEq, Repr

/-- Parse-time validation of a whole `ProjectPayloadDTO`: Pydantic runs the
per-node role validator and the per-edge id validator on the nested models.
No other cross-model check (in particular no node-id uniqueness check and no
edge-endpoint existence check) is present in dto.py. -/
def validateProject (p : ProjectPayloadDTO) : Bool :=
  p.nodes.all (fun n => (validate_role_requirements n).toBool) &&
    p.edges.all (fun e => (validate_edge_id e).toBool)

/-! ### Engine model (graphqomb, external collaborator)

Modelled from the spec: the graphqomb engine is not part of this repository;
only the construction primitives the converter calls are modelled (spec §4.2,
§6): `add_physical_node` returns a fresh sequential integer index,
`add_physical_edge`, `register_input`, `register_output` and
`assign_meas_basis` record their arguments and always succeed. -/

/-- Engine-side measurement basis.  The engine planner angle `2π·angleCoeff`
is represented symbolically by its coefficient, since the layer does no
arithmetic with it. -/
inductive MeasBasis : Type
  | planner (plane : MeasPlane) (angleTwoPiCoeff : Int)
  | axis (a : MeasAxis) (s : MeasSign)
deriving DecidableEq, Repr

/-- Modelled from the spec: the engine `GraphState`, recording the calls made
by the converter; `nextIndex` supplies fresh sequential node indices. -/
structure GraphState : Type where
  nodes : List (Nat × (Int × Int × Int)) := []
  edges : List (Nat × Nat) := []
  inputs : List (Nat × Int) := []
  outputs : List (Nat × Int) := []
  measBases : List (Nat × MeasBasis) := []
  nextIndex : Nat := 0
deriving DecidableEq, Repr

/-- Modelled from the spec: `GraphState.add_physical_node` adds the node with
its 3D coordinate and returns a fresh sequential index. -/
def GraphState.add_physical_node (g : GraphState) (coordinate : Int × Int × Int) :
    GraphState × Nat :=
  ({ g with nodes := g.nodes ++ [(g.nextIndex, coordinate)],
            nextIndex := g.nextIndex + 1 }, g.nextIndex)

/-- Modelled from the spec: `GraphState.add_physical_edge`. -/
def GraphState.add_physical_edge (g : GraphState) (u v : Nat) : GraphState :=
  { g with edges := g.edges ++ [(u, v)] }

/-- Modelled from the spec: `GraphState.register_input`. -/
def GraphState.register_input (g : GraphState) (node : Nat) (q : Int) : GraphState :=
  { g with inputs := g.inputs ++ [(node, q)] }

/-- Modelled from the spec: `GraphState.register_output`. -/
def GraphState.register_output (g : GraphState) (node : Nat) (q : Int) : GraphState :=
  { g with outputs := g.outputs ++ [(node, q)] }

/-- Modelled from the spec: `GraphState.assign_meas_basis`. -/
def GraphState.assign_meas_basis (g : GraphState) (node : Nat) (b : MeasBasis) :
    GraphState :=
  { g with measBases := g.measBases ++ [(node, b)] }

/-! ### Converter service (converter.py) -/

/-- Runtime errors the converter can raise (uncaught Python exceptions). -/
inductive ConvError : Type
  | attributeError (msg : String)
  | keyError (key : String)
deriving DecidableEq, Repr

/-- Embedding of `dto_to_meas_basis` (converter.py).  The planner angle
`2 * math.pi * dto.angleCoeff` is carried symbolically by its coefficient. -/
def dto_to_meas_basis : MeasBasisDTO → MeasBasis
  | .planner plane a => .planner plane a
  | .axis a s => .axis a s

/-- Node loop of `dto_to_graphstate`: for each node,
`coord_tuple = (coord.x, coord.y, coord.z)` — reading `.z` of a 2D
coordinate raises `AttributeError` — then `add_physical_node` and
`node_map[node_dto.id] = node_id`. -/
def addNodes : List GraphNodeDTO → GraphState → List (String × Nat) →
    Except ConvError (GraphState × List (String × Nat))
  | [], g, m => .ok (g, m)
  | n :: rest, g, m =>
    match n.coordinate with
    | .dim2 _ _ => .error (.attributeError "Coordinate2D object has no attribute z")
    | .dim3 x y z =>
      addNodes rest (g.add_physical_node (x, y, z)).1
        (pyDictInsert m n.id (g.add_physical_node (x, y, z)).2)

/-- Edge loop of `dto_to_graphstate`:
`source_id = node_map[edge_dto.source]`, `target_id = node_map[edge_dto.target]`
(unguarded dict lookups raising `KeyError`), then `add_physical_edge`. -/
def addEdges : List GraphEdgeDTO → List (String × Nat) → GraphState →
    Except ConvError GraphState
  | [], _, g => .ok g
  | e :: rest, m, g =>
    match pyLookup m e.source with
    | none => .error (.keyError e.source)
    | some u =>
      match pyLookup m e.target with
      | none => .error (.keyError e.target)
      | some v => addEdges rest m (g.add_physical_edge u v)

/-- Input/output registration loop of `dto_to_graphstate`:
`node_id = node_map[node_dto.id]` then `register_input` / `register_output`
when the role matches and `qubitIndex` is present. -/
def registerIO : List GraphNodeDTO → List (String × Nat) → GraphState →
    Except ConvError GraphState
  | [], _, g => .ok g
  | n :: rest, m, g =>
    match pyLookup m n.id with
    | none => .error (.keyError n.id)
    | some idx =>
      match n.role, n.qubitIndex with
      | .input, some q => registerIO rest m (g.register_input idx q)
      | .output, some q => registerIO rest m (g.register_output idx q)
      | _, _ => registerIO rest m g

/-- Measurement-basis loop of `dto_to_graphstate`: for every node carrying a
basis, `node_id = node_map[node_dto.id]` then `assign_meas_basis`. -/
def assignBases : List GraphNodeDTO → List (String × Nat) → GraphState →
    Except ConvError GraphState
  | [], _, g => .ok g
  | n :: rest, m, g =>
    match n.measBasis with
    | none => assignBases rest m g
    | some b =>
      match pyLookup m n.id with
      | none => .error (.keyError n.id)
      | some idx => assignBases rest m (g.assign_meas_basis idx (dto_to_meas_basis b))

/-- Embedding of `dto_to_graphstate` (converter.py): add nodes (building the
id-to-index map), add edges, register inputs/outputs, assign bases; the
first raised exception aborts the conversion. -/
def dto_to_graphstate (project : ProjectPayloadDTO) :
    Except ConvError (GraphState × List (String × Nat)) :=
  match addNodes project.nodes {} [] with
  | .error e => .error e
  | .ok (g1, node_map) =>
    match addEdges project.edges node_map g1 with
    | .error e => .error e
    | .ok g2 =>
      match registerIO project.nodes node_map g2 with
      | .error e => .error e
      | .ok g3 =>
        match assignBases project.nodes node_map g3 with
        | .error e => .error e
        | .ok g4 => .ok (g4, node_map)

/-- One id-keyed flow dict converted to index-keyed form, shared by the
xflow and zflow branches of `dto_to_flow`: keys absent from the map are
skipped, targets absent from the map are dropped from the target set
(a Python set comprehension, modelled as a `Finset`). -/
def flowToIndexed (flowMap : List (String × List String))
    (node_map : List (String × Nat)) : List (Nat × Finset Nat) :=
  dmap (fun p => (pyLookup node_map p.1).map
    (fun i => (i, (p.2.filterMap (pyLookup node_map)).toFinset))) flowMap

/-- Embedding of `dto_to_flow` (converter.py): convert xflow, and zflow
unless it is the sentinel "auto" (in which case the z-flow component is
`none`). -/
def dto_to_flow (project : ProjectPayloadDTO) (node_map : List (String × Nat)) :
    List (Nat × Finset Nat) × Option (List (Nat × Finset Nat)) :=
  let xflow := flowToIndexed project.flow.xflow node_map
  match project.flow.zflow with
  | .auto => (xflow, none)
  | .manual zf => (xflow, some (flowToIndexed zf node_map))

/-- Modelled from the spec: one engine time slice; upstream slices may carry
a time label (ignored by the forward translator, which renumbers by
position). -/
structure EngineTimeSlice : Type where
  time : Int
  prepare_nodes : List Nat
  entangle_edges : List (Nat × Nat)
  measure_nodes : List Nat
deriving DecidableEq, Repr

/-- `TimeSliceDTO` fields. -/
structure TimeSliceDTO : Type where
  time : Int
  prepareNodes : List String
  entangleEdges : List String
  measureNodes : List String
deriving DecidableEq, Repr

/-- `ScheduleResultDTO` fields.  Wire dicts are association lists; their
Python equality is key-set/value equality, which coincides with list equality
for the dicts built here. -/
structure ScheduleResultDTO : Type where
  prepareTime : List (String × Option Int)
  measureTime : List (String × Option Int)
  entangleTime : List (String × Option Int)
  timeline : List TimeSliceDTO
deriving DecidableEq, Repr

/-- One slice of the timeline conversion in `schedule_to_dto`: indices with
no reverse mapping are dropped, edge ids are rebuilt with
`normalize_edge_id`. -/
def convertSlice (reverse_map : List (Nat × String)) (i : Nat)
    (ts : EngineTimeSlice) : TimeSliceDTO :=
  { time := (i : Int)
    prepareNodes := ts.prepare_nodes.filterMap (pyLookup reverse_map)
    entangleEdges := ts.entangle_edges.filterMap (fun e =>
      match pyLookup reverse_map e.1, pyLookup reverse_map e.2 with
      | some sa, some sb => some (normalize_edge_id sa sb)
      | _, _ => none)
    measureNodes := ts.measure_nodes.filterMap (pyLookup reverse_map) }

/-- Timeline loop of `schedule_to_dto`: Python `enumerate` renumbers the
slices sequentially from the start index. -/
def convertTimeline (reverse_map : List (Nat × String)) :
    Nat → List EngineTimeSlice → List TimeSliceDTO
  | _, [] => []
  | i, ts :: rest => convertSlice reverse_map i ts :: convertTimeline reverse_map (i + 1) rest

/-- Embedding of `schedule_to_dto` (converter.py): translate the three
engine-keyed timing dicts through the reverse map (dropping entries whose
index or edge endpoint has no reverse mapping, rebuilding edge keys with
`normalize_edge_id`) and renumber the timeline by position. -/
def schedule_to_dto (prepare_time measure_time : List (Nat × Option Int))
    (entangle_time : List ((Nat × Nat) × Option Int))
    (timeline : List EngineTimeSlice)
    (reverse_map : List (Nat × String)) : ScheduleResultDTO :=
  { prepareTime := dmap (fun p => (pyLookup reverse_map p.1).map (fun s => (s, p.2)))
      prepare_time
    measureTime := dmap (fun p => (pyLookup reverse_map p.1).map (fun s => (s, p.2)))
      measure_time
    entangleTime := dmap (fun p =>
      match pyLookup reverse_map p.1.1, pyLookup reverse_map p.1.2 with
      | some sa, some sb => some (normalize_edge_id sa sb, p.2)
      | _, _ => none) entangle_time
    timeline := convertTimeline reverse_map 0 timeline }

/-- Embedding of `dto_to_schedule` (converter.py): translate the wire dicts
back to index keys; edge ids are split on `"-"`, any id not splitting into
exactly two known ids is dropped, and the endpoint indices are reordered into
canonical `(min, max)` form. -/
def dto_to_schedule (schedule_dto : ScheduleResultDTO)
    (node_map : List (String × Nat)) :
    List (Nat × Option Int) × List (Nat × Option Int) ×
      List ((Nat × Nat) × Option Int) :=
  ( dmap (fun p => (pyLookup node_map p.1).map (fun i => (i, p.2)))
      schedule_dto.prepareTime
  , dmap (fun p => (pyLookup node_map p.1).map (fun i => (i, p.2)))
      schedule_dto.measureTime
  , dmap (fun p =>
      match splitOnHyphen p.1 with
      | [s0, s1] =>
        match pyLookup node_map s0, pyLookup node_map s1 with
        | some u, some v => some ((min u v, max u v), p.2)
        | _, _ => none
      | _ => none) schedule_dto.entangleTime )

/-- Key-wise view of the entangle-time entry transformer of
`schedule_to_dto`: the edge id produced for a canonical index pair, when
both endpoints have a reverse mapping.  Used to factor the round-trip
argument; pointwise equal to the transformer in `schedule_to_dto`. -/
def edgeKeyForward (reverse_map : List (Nat × String)) (ab : Nat × Nat) :
    Option String :=
  match pyLookup reverse_map ab.1, pyLookup reverse_map ab.2 with
  | some sa, some sb => some (normalize_edge_id sa sb)
  | _, _ => none

/-- Key-wise view of the entangle-time entry transformer of
`dto_to_schedule`: split the edge id, require exactly two known ids, and
reorder the endpoint indices into canonical (min, max) form. -/
def edgeKeyReverse (node_map : List (String × Nat)) (eid : String) :
    Option (Nat × Nat) :=
  match splitOnHyphen eid with
  | [s0, s1] =>
    match pyLookup node_map s0, pyLookup node_map s1 with
    | some u, some v => some (min u v, max u v)
    | _, _ => none
  | _ => none

/-! ### Error translator (converter.py, `translate_error_message`)

The three `re.sub` passes are embedded as left-to-right scanners over the
character list; matching is over the ASCII alphabet the engine messages use.
Each scanner consumes at least one character per step, so fuel equal to the
input length suffices. -/

/-- Python regex `\w` (word character), ASCII fragment. -/
def isWordChar (c : Char) : Bool := c.isAlpha || c.isDigit || c = '_'

/-- Python regex `\s` (whitespace), ASCII fragment. -/
def isSpaceChar (c : Char) : Bool :=
  c = ' ' || c = '\t' || c = '\n' || c = '\x0d' || c = '\x0b' || c = '\x0c'

/-- Longest leading run of decimal digits (`\d+`) and the rest. -/
def takeDigits : List Char → List Char × List Char
  | [] => ([], [])
  | c :: cs =>
    if c.isDigit then
      match takeDigits cs with
      | (ds, rest) => (c :: ds, rest)
    else ([], c :: cs)

/-- Python `int` on a run of decimal digits. -/
def digitsToNat (ds : List Char) : Nat :=
  ds.foldl (fun n c => 10 * n + (c.toNat - '0'.toNat)) 0

/-- `reverse_map.get(i, f"?{i}")`: the mapped id, or the placeholder
`?<index>` when the index is absent from the reverse map. -/
def lookupOr (reverse_map : List (Nat × String)) (i : Nat) : String :=
  (pyLookup reverse_map i).getD ("?" ++ toString i)

/-- Tail of the bracket-list pattern `\[(\d+(?:,\s*\d+)*)\]` after the first
digit run: a sequence of `,\s*\d+` groups followed by `]`.  Returns the
collected integers and the rest of the input after `]`. -/
def matchListRest : Nat → List Char → List Nat → Option (List Nat × List Char)
  | 0, _, _ => none
  | _ + 1, [], _ => none
  | fuel + 1, c :: cs, accVals =>
    if c = ']' then some (accVals.reverse, cs)
    else if c = ',' then
      match takeDigits (cs.dropWhile isSpaceChar) with
      | ([], _) => none
      | (ds, rest) => matchListRest fuel rest (digitsToNat ds :: accVals)
    else none

/-- Attempt to match the body of `\[(\d+(?:,\s*\d+)*)\]` right after an
opening bracket. -/
def matchIndexList (cs : List Char) : Option (List Nat × List Char) :=
  match takeDigits cs with
  | ([], _) => none
  | (ds, rest) => matchListRest (cs.length + 1) rest [digitsToNat ds]

/-- First `re.sub` pass: replace each bracketed comma-separated integer list
with the bracketed list of mapped ids. -/
def rewriteBrackets (reverse_map : List (Nat × String)) :
    Nat → List Char → List Char
  | 0, cs => cs
  | _ + 1, [] => []
  | fuel + 1, c :: cs =>
    if c = '[' then
      match matchIndexList cs with
      | some (vals, rest) =>
        ("[" ++ String.intercalate ", " (vals.map (lookupOr reverse_map)) ++ "]").data
          ++ rewriteBrackets reverse_map fuel rest
      | none => c :: rewriteBrackets reverse_map fuel cs
    else c :: rewriteBrackets reverse_map fuel cs

/-- Second `re.sub` pass: replace each `\bnode (\d+)` with `node <id>`.  The
boolean argument tracks whether the previous character is a word character
(for the `\b` word boundary). -/
def rewriteNode (reverse_map : List (Nat × String)) :
    Nat → Bool → List Char → List Char
  | 0, _, cs => cs
  | _ + 1, _, [] => []
  | fuel + 1, prevW, c :: cs =>
    if c = 'n' && !prevW then
      match cs with
      | 'o' :: 'd' :: 'e' :: ' ' :: rest =>
        match takeDigits rest with
        | ([], _) => c :: rewriteNode reverse_map fuel true cs
        | (ds, rest2) =>
          ("node " ++ lookupOr reverse_map (digitsToNat ds)).data
            ++ rewriteNode reverse_map fuel true rest2
      | _ => c :: rewriteNode reverse_map fuel true cs
    else c :: rewriteNode reverse_map fuel (isWordChar c) cs

/-- Tail of the edge pattern `\((\d+), (\d+)\)` after `"Edge "` / `"edge "`:
parenthesised pair of integers separated by a literal comma-space. -/
def matchEdgeTail : List Char → Option (Nat × Nat × List Char)
  | '(' :: rest =>
    match takeDigits rest with
    | ([], _) => none
    | (d1, r1) =>
      match r1 with
      | ',' :: ' ' :: r2 =>
        match takeDigits r2 with
        | ([], _) => none
        | (d2, r3) =>
          match r3 with
          | ')' :: r4 => some (digitsToNat d1, digitsToNat d2, r4)
          | _ => none
      | _ => none
  | _ => none

/-- Third `re.sub` pass: replace each `\b(Edge|edge) \((\d+), (\d+)\)` with
the mapped ids, preserving the original capitalization of the prefix. -/
def rewriteEdge (reverse_map : List (Nat × String)) :
    Nat → Bool → List Char → List Char
  | 0, _, cs => cs
  | _ + 1, _, [] => []
  | fuel + 1, prevW, c :: cs =>
    if (c = 'E' || c = 'e') && !prevW then
      match cs with
      | 'd' :: 'g' :: 'e' :: ' ' :: rest =>
        match matchEdgeTail rest with
        | some (u, v, r4) =>
          (String.singleton c ++ "dge (" ++ lookupOr reverse_map u ++ ", "
              ++ lookupOr reverse_map v ++ ")").data
            ++ rewriteEdge reverse_map fuel false r4
        | none => c :: rewriteEdge reverse_map fuel true cs
      | _ => c :: rewriteEdge reverse_map fuel true cs
    else c :: rewriteEdge reverse_map fuel (isWordChar c) cs

/-- Embedding of `translate_error_message` (converter.py): the three
substitution passes run in sequence — bracketed index lists, then
`node <int>` tokens, then `Edge/edge (<int>, <int>)` tokens. -/
def translate_error_message (message : String)
    (reverse_map : List (Nat × String)) : String :=
  let r1 := rewriteBrackets reverse_map (message.data.length + 1) message.data
  let r2 := rewriteNode reverse_map (r1.length + 1) false r1
  let r3 := rewriteEdge reverse_map (r2.length + 1) false r2
  String.mk r3

/-! ### Pattern-occurrence view of the error translator

To reason about `translate_error_message` on every message containing the
three engine patterns, a message is decomposed into segments: literal text
and occurrences of the three pattern classes with arbitrary digit strings.
The predicates below identify where a pass's pattern matches, and the
well-formedness conditions delimit literal text and mapped ids that do not
themselves form (or extend) a pattern of a later pass — the substitutions
run sequentially, so without such conditions a substituted id is itself
rewritten again. -/

/-- The fixed characters of the `node` pattern: `"node "`. -/
def nodePat : List Char := ['n', 'o', 'd', 'e', ' ']

/-- Head character is a decimal digit. -/
def headDigit : List Char → Bool
  | [] => false
  | c :: _ => c.isDigit

/-- Head character is an opening parenthesis. -/
def headLParen : List Char → Bool
  | [] => false
  | c :: _ => c = '('

/-- A bracket-list match of the first pass begins at this position. -/
def bracketMatchAt : List Char → Bool
  | '[' :: cs => (matchIndexList cs).isSome
  | _ => false

/-- A `node <int>` match of the second pass begins at this position
(ignoring the word boundary, which the scanner tracks separately). -/
def nodeMatchAt : List Char → Bool
  | 'n' :: 'o' :: 'd' :: 'e' :: ' ' :: rest => !(takeDigits rest).1.isEmpty
  | _ => false

/-- An `Edge/edge (<int>, <int>)` match of the third pass begins at this
position (ignoring the word boundary). -/
def edgeMatchAt : List Char → Bool
  | c :: 'd' :: 'g' :: 'e' :: ' ' :: rest =>
    (c = 'E' || c = 'e') && (matchEdgeTail rest).isSome
  | _ => false

/-- No `node` match of the second pass starts inside the chunk, even
spanning into the following text `R`. -/
def nodeSafeChunk : List Char → List Char → Bool
  | [], _ => true
  | c :: cs, R => !nodeMatchAt (c :: (cs ++ R)) && nodeSafeChunk cs R

/-- No `Edge/edge` match of the third pass starts inside the chunk, even
spanning into the following text `R`. -/
def edgeSafeChunk : List Char → List Char → Bool
  | [], _ => true
  | c :: cs, R => !edgeMatchAt (c :: (cs ++ R)) && edgeSafeChunk cs R

/-- The word-boundary state of the scanners after consuming a chunk. -/
def prevWAfter (prevW : Bool) (chunk : List Char) : Bool :=
  chunk.foldl (fun _ c => isWordChar c) prevW

/-- The following text cannot extend a partially consumed `node` pattern:
it neither starts with a digit (completing `node ` just consumed) nor with a
proper tail of `node ` followed by a digit. -/
def nodeContFalse (R : List Char) : Prop :=
  headDigit R = false ∧
  (∀ t, R = 'o' :: 'd' :: 'e' :: ' ' :: t → headDigit t = false) ∧
  (∀ t, R = 'd' :: 'e' :: ' ' :: t → headDigit t = false) ∧
  (∀ t, R = 'e' :: ' ' :: t → headDigit t = false) ∧
  (∀ t, R = ' ' :: t → headDigit t = false)

/-- The following text cannot extend a partially consumed `Edge/edge`
pattern: no tail of `dge (` appears at its head. -/
def edgeContFalse (R : List Char) : Prop :=
  headLParen R = false ∧
  (∀ t, R = 'd' :: 'g' :: 'e' :: ' ' :: t → headLParen t = false) ∧
  (∀ t, R = 'g' :: 'e' :: ' ' :: t → headLParen t = false) ∧
  (∀ t, R = 'e' :: ' ' :: t → headLParen t = false) ∧
  (∀ t, R = ' ' :: t → headLParen t = false)

/-- Characters allowed in literal message text between pattern occurrences:
no brackets, no parentheses, no digits (digits next to literal text would
extend or create a pattern occurrence). -/
def litChar (c : Char) : Bool := !(c = '[') && !(c = '(') && !c.isDigit

/-- A nonempty literal chunk of allowed characters. -/
def litChunkOK (s : List Char) : Bool := !s.isEmpty && s.all litChar

/-- A nonempty run of decimal digits (an integer of a pattern). -/
def digitsChunkOK (d : List Char) : Bool := !d.isEmpty && d.all Char.isDigit

/-- Characters of a plain node-id token: letters, digits, `-`, `_`, `?`,
excluding the lowercase pattern letters `o d g e` so that a substituted id
can neither contain nor extend a later pattern occurrence. -/
def idCharOK (c : Char) : Bool :=
  (c.isAlpha || c.isDigit || c = '-' || c = '_' || c = '?') &&
    !(c = 'o' || c = 'd' || c = 'g' || c = 'e')

/-- A plain node-id token: nonempty, not starting with a digit (so that a
substituted id does not extend a preceding `node <int>` replacement), with
allowed characters only. -/
def idStrOK (s : String) : Bool :=
  match s.data with
  | [] => false
  | c :: _ => !c.isDigit && s.data.all idCharOK

/-- All ids of the reverse map are plain tokens. -/
def revTokensOK (rev : List (Nat × String)) : Bool :=
  rev.all (fun q => idStrOK q.2)

/-- One segment of an error message: literal text, a bracketed integer
list, a `node <int>` token, or an `Edge/edge (<int>, <int>)` token. -/
inductive ErrSeg : Type
  | lit (s : List Char)
  | idx (ds : List (List Char))
  | node (d : List Char)
  | edge (cap : Bool) (d1 d2 : List Char)
deriving DecidableEq, Repr

/-- `", "`-separated rendering of the non-first chunks of a bracket list. -/
def interTail : List (List Char) → List Char
  | [] => []
  | d :: ds => ',' :: ' ' :: (d ++ interTail ds)

/-- `", "`-separated rendering of the chunks of a bracket list. -/
def interChunks : List (List Char) → List Char
  | [] => []
  | d :: ds => d ++ interTail ds

/-- The id substituted for a digit run: the mapped id, or the `?<index>`
placeholder. -/
def idOf (rev : List (Nat × String)) (d : List Char) : List Char :=
  (lookupOr rev (digitsToNat d)).data

/-- Stage-0 rendering of one segment (the original message text). -/
def segRender0 : ErrSeg → List Char
  | .lit s => s
  | .idx ds => '[' :: (interChunks ds ++ [']'])
  | .node d => nodePat ++ d
  | .edge cap d1 d2 =>
    (if cap then 'E' else 'e') :: 'd' :: 'g' :: 'e' :: ' ' :: '(' ::
      (d1 ++ ',' :: ' ' :: (d2 ++ [')']))

/-- Stage-1 rendering: bracket lists already substituted. -/
def segRender1 (rev : List (Nat × String)) : ErrSeg → List Char
  | .lit s => s
  | .idx ds => '[' :: (interChunks (ds.map (idOf rev)) ++ [']'])
  | .node d => nodePat ++ d
  | .edge cap d1 d2 =>
    (if cap then 'E' else 'e') :: 'd' :: 'g' :: 'e' :: ' ' :: '(' ::
      (d1 ++ ',' :: ' ' :: (d2 ++ [')']))

/-- Stage-2 rendering: bracket lists and node tokens substituted. -/
def segRender2 (rev : List (Nat × String)) : ErrSeg → List Char
  | .lit s => s
  | .idx ds => '[' :: (interChunks (ds.map (idOf rev)) ++ [']'])
  | .node d => nodePat ++ idOf rev d
  | .edge cap d1 d2 =>
    (if cap then 'E' else 'e') :: 'd' :: 'g' :: 'e' :: ' ' :: '(' ::
      (d1 ++ ',' :: ' ' :: (d2 ++ [')']))

/-- Stage-3 rendering: all three pattern classes substituted, original
`Edge`/`edge` capitalization preserved. -/
def segRender3 (rev : List (Nat × String)) : ErrSeg → List Char
  | .lit s => s
  | .idx ds => '[' :: (interChunks (ds.map (idOf rev)) ++ [']'])
  | .node d => nodePat ++ idOf rev d
  | .edge cap d1 d2 =>
    (if cap then 'E' else 'e') :: 'd' :: 'g' :: 'e' :: ' ' :: '(' ::
      (idOf rev d1 ++ ',' :: ' ' :: (idOf rev d2 ++ [')']))

/-- Concatenated stage-0 rendering of a segment list. -/
def msgRender0 : List ErrSeg → List Char
  | [] => []
  | seg :: rest => segRender0 seg ++ msgRender0 rest

/-- Concatenated stage-1 rendering. -/
def msgRender1 (rev : List (Nat × String)) : List ErrSeg → List Char
  | [] => []
  | seg :: rest => segRender1 rev seg ++ msgRender1 rev rest

/-- Concatenated stage-2 rendering. -/
def msgRender2 (rev : List (Nat × String)) : List ErrSeg → List Char
  | [] => []
  | seg :: rest => segRender2 rev seg ++ msgRender2 rev rest

/-- Concatenated stage-3 rendering (the fully translated message). -/
def msgRender3 (rev : List (Nat × String)) : List ErrSeg → List Char
  | [] => []
  | seg :: rest => segRender3 rev seg ++ msgRender3 rev rest

/-- Well-formed segment list.  The two booleans track the word-boundary
state before the next segment and whether the previous segment was literal
text (adjacent literal segments are merged): a `node` or `Edge/edge` token
must sit at a word boundary, a `node` token may not directly precede a
`node` or `Edge/edge` token (its substituted id would decide the boundary),
and digit runs and literal chunks satisfy the chunk conditions. -/
def segsOK : Bool → Bool → List ErrSeg → Bool
  | _, _, [] => true
  | pw, pl, .lit s :: rest =>
    litChunkOK s && !pl && segsOK (prevWAfter pw s) true rest
  | _, _, .idx ds :: rest =>
    !ds.isEmpty && ds.all digitsChunkOK && segsOK false false rest
  | pw, _, .node d :: rest =>
    !pw && digitsChunkOK d && segsOK true false rest
  | pw, _, .edge _ d1 d2 :: rest =>
    !pw && digitsChunkOK d1 && digitsChunkOK d2 && segsOK false false rest

/-! ### Schedule router (routers/schedule.py) -/

/-- Strategy query parameter literal of `/api/schedule`. -/
inductive Strategy : Type
  | MINIMIZE_SPACE
  | MINIMIZE_TIME
deriving DecidableEq, Repr

/-- `ScheduleConfig(strategy=...)`. -/
structure ScheduleConfig : Type where
  strategy : Strategy
deriving DecidableEq, Repr

/-- Modelled from the spec: the engine scheduler state after a successful
solve — per-node/edge times plus the time-slice sequence (spec §6). -/
structure EngineSchedule : Type where
  prepare_time : List (Nat × Option Int)
  measure_time : List (Nat × Option Int)
  entangle_time : List ((Nat × Nat) × Option Int)
  timeline : List EngineTimeSlice
deriving DecidableEq, Repr

/-- The engine `Scheduler.solve_schedule` entry point, abstracted: given the
graph, flows, config and timeout it either raises (`Except.error`), or
returns the success flag together with the scheduler state.  Modelled from
the spec: the solver itself is external. -/
def SolveFun : Type :=
  GraphState → List (Nat × Finset Nat) → Option (List (Nat × Finset Nat)) →
    ScheduleConfig → Nat → Except String (Bool × EngineSchedule)

/-- Errors surfaced by the schedule endpoint: the explicit
`HTTPException(status_code=400, ...)` raises, or an uncaught converter
exception (HTTP 500). -/
inductive HttpError : Type
  | httpException (status : Nat) (detail : String)
  | internalError (e : ConvError)
deriving DecidableEq, Repr

/-- `{v: k for k, v in node_map.items()}`. -/
def invertMap (node_map : List (String × Nat)) : List (Nat × String) :=
  node_map.foldl (fun acc p => pyDictInsert acc p.2 p.1) []

/-- Embedding of `compute_schedule` (routers/schedule.py): convert the
project, build the reverse map, call the engine solve with the hard-coded
`timeout=60` (the request carries no timeout parameter), fail with HTTP 400
on an engine exception or an unsuccessful solve, and otherwise translate the
scheduler state with `schedule_to_dto`. -/
def compute_schedule (solve : SolveFun) (project : ProjectPayloadDTO)
    (strategy : Strategy) : Except HttpError ScheduleResultDTO :=
  match dto_to_graphstate project with
  | .error e => .error (.internalError e)
  | .ok gm =>
    let graph := gm.1
    let node_map := gm.2
    let fl := dto_to_flow project node_map
    let reverse_map := invertMap node_map
    let config : ScheduleConfig := { strategy := strategy }
    match solve graph fl.1 fl.2 config 60 with
    | .error e =>
      .error (.httpException 400 ("Schedule computation failed: " ++ e))
    | .ok (false, _) =>
      .error (.httpException 400 "Schedule computation failed: no solution found")
    | .ok (true, st) =>
      .ok (schedule_to_dto st.prepare_time st.measure_time st.entangle_time
        st.timeline reverse_map)

/-! ### Concrete payloads (from the backend test suite) -/

/-- Whether a parsed coordinate took the 3D variant. -/
def CoordinateDTO.is3D : CoordinateDTO → Bool
  | .dim3 _ _ _ => true
  | .dim2 _ _ => false

/-- The test suite payload `create_simple_project` (test_validate.py,
test_schedule.py): two nodes with 2D coordinates, one edge, auto z-flow. -/
def simpleProject2D : ProjectPayloadDTO :=
  { name := "Test Project"
    dimension := 2
    nodes := [
      { id := "n0", coordinate := .dim2 0 0, role := .input,
        measBasis := some (.planner .XY 0), qubitIndex := some 0 },
      { id := "n1", coordinate := .dim2 1 0, role := .output,
        qubitIndex := some 0 }]
    edges := [{ id := "n0-n1", source := "n0", target := "n1" }]
    flow := { xflow := [("n0", ["n1"])], zflow := .auto } }

/-- The same project with 3D coordinates (as in test_flow.py payloads). -/
def simpleProject3D : ProjectPayloadDTO :=
  { name := "Test Project"
    dimension := 3
    nodes := [
      { id := "n0", coordinate := .dim3 0 0 0, role := .input,
        measBasis := some (.planner .XY 0), qubitIndex := some 0 },
      { id := "n1", coordinate := .dim3 1 0 0, role := .output,
        qubitIndex := some 0 }]
    edges := [{ id := "n0-n1", source := "n0", target := "n1" }]
    flow := { xflow := [("n0", ["n1"])], zflow := .auto } }

/-- A payload whose two nodes share the id "n0" (each node valid on its
own). -/
def dupIdProject : ProjectPayloadDTO :=
  { name := "dup"
    dimension := 3
    nodes := [
      { id := "n0", coordinate := .dim3 0 0 0, role := .input,
        measBasis := some (.planner .XY 0), qubitIndex := some 0 },
      { id := "n0", coordinate := .dim3 1 0 0, role := .output,
        qubitIndex := some 0 }]
    edges := []
    flow := { xflow := [], zflow := .auto } }

/-- A payload with a canonically-named edge whose target id "zz" names no
node. -/
def danglingEdgeProject : ProjectPayloadDTO :=
  { name := "dangling"
    dimension := 3
    nodes := [
      { id := "n0", coordinate := .dim3 0 0 0, role := .input,
        measBasis := some (.planner .XY 0), qubitIndex := some 0 }]
    edges := [{ id := "n0-zz", source := "n0", target := "zz" }]
    flow := { xflow := [], zflow := .auto } }

/-- A payload with a 2D coordinate and a canonically-named edge whose
target id "zz" names no node. -/
def danglingEdge2DProject : ProjectPayloadDTO :=
  { name := "dangling2d"
    dimension := 2
    nodes := [
      { id := "n0", coordinate := .dim2 0 0, role := .input,
        measBasis := some (.planner .XY 0), qubitIndex := some 0 }]
    edges := [{ id := "n0-zz", source := "n0", target := "zz" }]
    flow := { xflow := [], zflow := .auto } }

/-- An engine schedule with no entries (the solver state for an empty
project). -/
def emptyEngineSchedule : EngineSchedule :=
  { prepare_time := [], measure_time := [], entangle_time := [], timeline := [] }

/-! ## Lemmas about the Python dict model -/

section DictLemmas

variable {α β γ δ : Type} [DecidableEq α] [DecidableEq γ]

theorem pyLookup_append (d₁ d₂ : List (α × β)) (k : α) :
    pyLookup (d₁ ++ d₂) k =
      match pyLookup d₁ k with
      | some v => some v
      | none => pyLookup d₂ k := by
  induction d₁ with
  | nil => simp [pyLookup]
  | cons p rest ih =>
    obtain ⟨k', v⟩ := p
    by_cases h : k' = k <;> simp [pyLookup, h, ih]

theorem mem_of_pyLookup {d : List (α × β)} {k : α} {v : β}
    (h : pyLookup d k = some v) : (k, v) ∈ d := by
  induction d with
  | nil => simp [pyLookup] at h
  | cons p rest ih =>
    obtain ⟨k', v'⟩ := p
    by_cases hk : k' = k
    · subst hk
      simp [pyLookup] at h
      simp [h]
    · simp [pyLookup, hk] at h
      simp [ih h]

theorem hasKey_iff_mem_dkeys (d : List (α × β)) (k : α) :
    hasKey d k = true ↔ k ∈ dkeys d := by
  induction d with
  | nil => simp [hasKey, pyLookup, dkeys]
  | cons p rest ih =>
    obtain ⟨k', v'⟩ := p
    by_cases hk : k' = k <;> simp [hasKey, pyLookup, dkeys, hk] at ih ⊢
    · simpa [hasKey, dkeys, Ne.symm hk] using ih

theorem pyDictInsert_of_not_hasKey {d : List (α × β)} {k : α} (v : β)
    (h : hasKey d k = false) : pyDictInsert d k v = d ++ [(k, v)] := by
  simp [pyDictInsert, h]

theorem dkeys_pyDictInsert_of_hasKey {d : List (α × β)} {k : α} (v : β)
    (h : hasKey d k = true) :
    dkeys (pyDictInsert d k v) = dkeys d := by
  simp only [pyDictInsert, h, if_true, dkeys, List.map_map]
  refine List.map_congr_left ?_
  intro p _
  by_cases hp : p.1 = k <;> simp [hp]

theorem hasKey_pyDictInsert (d : List (α × β)) (k k' : α) (v : β) :
    hasKey (pyDictInsert d k v) k' = true ↔ (hasKey d k' = true ∨ k' = k) := by
  by_cases h : hasKey d k
  · rw [hasKey_iff_mem_dkeys, dkeys_pyDictInsert_of_hasKey v h, ← hasKey_iff_mem_dkeys]
    constructor
    · exact Or.inl
    · rintro (hk | rfl)
      · exact hk
      · exact h
  · rw [pyDictInsert_of_not_hasKey v (by simpa using h)]
    rw [hasKey_iff_mem_dkeys]
    have hk : dkeys (d ++ [(k, v)]) = dkeys d ++ [k] := by simp [dkeys]
    rw [hk, List.mem_append, ← hasKey_iff_mem_dkeys]
    simp

theorem foldl_dmap_body_append (g : α × β → Option (γ × δ)) (l : List (α × β)) :
    ∀ acc : List (γ × δ),
      (∀ p ∈ l, ∀ q, g p = some q → hasKey acc q.1 = false) →
      ((l.filterMap g).map Prod.fst).Nodup →
      (l.foldl (fun acc p =>
        match g p with
        | some q => pyDictInsert acc q.1 q.2
        | none => acc) acc) = acc ++ l.filterMap g := by
  induction l with
  | nil => intro acc _ _; simp
  | cons p rest ih =>
    intro acc hfresh hnodup
    cases hgp : g p with
    | none =>
      simp only [List.foldl_cons, hgp]
      rw [ih acc (fun p' hp' => hfresh p' (List.mem_cons_of_mem _ hp'))
        (by simpa [List.filterMap_cons, hgp] using hnodup)]
      simp [List.filterMap_cons, hgp]
    | some q =>
      simp only [List.foldl_cons, hgp]
      have hins : pyDictInsert acc q.1 q.2 = acc ++ [(q.1, q.2)] :=
        pyDictInsert_of_not_hasKey q.2 (hfresh p (List.mem_cons_self _ _) q hgp)
      have hnodup' : ((rest.filterMap g).map Prod.fst).Nodup := by
        simp only [List.filterMap_cons, hgp, List.map_cons, List.nodup_cons] at hnodup
        exact hnodup.2
      have hq1 : q.1 ∉ (rest.filterMap g).map Prod.fst := by
        simp only [List.filterMap_cons, hgp, List.map_cons, List.nodup_cons] at hnodup
        exact hnodup.1
      rw [hins, ih (acc ++ [(q.1, q.2)]) ?_ hnodup']
      · simp [List.filterMap_cons, hgp]
      · intro p' hp' q' hgp'
        have h1 : hasKey acc q'.1 = false :=
          hfresh p' (List.mem_cons_of_mem _ hp') q' hgp'
        have h2 : q'.1 ≠ q.1 := by
          intro heq
          apply hq1
          rw [← heq]
          exact List.mem_map_of_mem Prod.fst (List.mem_filterMap.mpr ⟨p', hp', hgp'⟩)
        simp only [hasKey, pyLookup_append]
        simp only [hasKey] at h1
        cases hl : pyLookup acc q'.1 with
        | some v => rw [hl] at h1; simp at h1
        | none => simp [pyLookup, Ne.symm h2]

theorem dmap_eq_filterMap (g : α × β → Option (γ × δ)) (l : List (α × β))
    (h : ((l.filterMap g).map Prod.fst).Nodup) :
    dmap g l = l.filterMap g := by
  have := foldl_dmap_body_append g l [] (by intro p _ q _; simp [hasKey, pyLookup]) h
  simpa [dmap] using this

theorem dmap_congr {g g' : α × β → Option (γ × δ)} (l : List (α × β))
    (h : ∀ p, g p = g' p) : dmap g l = dmap g' l := by
  have : g = g' := funext h
  rw [this]

theorem hasKey_foldl_dmap_body (g : α × β → Option (γ × δ)) (l : List (α × β)) :
    ∀ (acc : List (γ × δ)) (k : γ),
      hasKey (l.foldl (fun acc p =>
        match g p with
        | some q => pyDictInsert acc q.1 q.2
        | none => acc) acc) k = true ↔
      (hasKey acc k = true ∨ ∃ p ∈ l, ∃ v, g p = some (k, v)) := by
  induction l with
  | nil => intro acc k; simp
  | cons p rest ih =>
    intro acc k
    cases hgp : g p with
    | none => simp only [List.foldl_cons, hgp]; rw [ih]; simp [hgp]
    | some q =>
      simp only [List.foldl_cons, hgp]
      rw [ih, hasKey_pyDictInsert]
      constructor
      · rintro ((hk | rfl) | ⟨p', hp', v, hgp'⟩)
        · exact Or.inl hk
        · exact Or.inr ⟨p, List.mem_cons_self _ _, q.2, hgp⟩
        · exact Or.inr ⟨p', List.mem_cons_of_mem _ hp', v, hgp'⟩
      · rintro (hk | ⟨p', hp', v, hgp'⟩)
        · exact Or.inl (Or.inl hk)
        · rcases List.mem_cons.mp hp' with rfl | hp''
          · have hq : q = (k, v) := Option.some.inj (hgp.symm.trans hgp')
            exact Or.inl (Or.inr (by rw [hq]))
          · exact Or.inr ⟨p', hp'', v, hgp'⟩

theorem hasKey_dmap (g : α × β → Option (γ × δ)) (l : List (α × β)) (k : γ) :
    hasKey (dmap g l) k = true ↔ ∃ p ∈ l, ∃ v, g p = some (k, v) := by
  have := hasKey_foldl_dmap_body g l [] k
  simpa [dmap, hasKey, pyLookup] using this

theorem pyLookup_of_mem_nodup {d : List (α × β)} (h : (dkeys d).Nodup)
    {k : α} {v : β} (hmem : (k, v) ∈ d) : pyLookup d k = some v := by
  induction d with
  | nil => simp at hmem
  | cons p rest ih =>
    obtain ⟨k', v'⟩ := p
    simp only [dkeys, List.map_cons, List.nodup_cons] at h
    rcases List.mem_cons.mp hmem with heq | hmem'
    · injection heq with h1 h2
      subst h1
      subst h2
      simp [pyLookup]
    · have hk : k' ≠ k := by
        rintro rfl
        exact h.1 (List.mem_map_of_mem Prod.fst hmem')
      simp [pyLookup, hk]
      exact ih h.2 hmem'

end DictLemmas

section PureListLemmas

variable {α β γ δ : Type}

theorem nodup_map_fst_filterMap {σ τ : Type} (l : List (σ × τ))
    (g : σ × τ → Option (γ × δ))
    (hl : (l.map Prod.fst).Nodup)
    (hg : ∀ p ∈ l, ∀ p' ∈ l, ∀ k v v', g p = some (k, v) → g p' = some (k, v') →
      p.1 = p'.1) :
    ((l.filterMap g).map Prod.fst).Nodup := by
  induction l with
  | nil => simp
  | cons p rest ih =>
    simp only [List.map_cons, List.nodup_cons] at hl
    cases hgp : g p with
    | none =>
      simp only [List.filterMap_cons, hgp]
      exact ih hl.2 (fun a ha b hb => hg a (List.mem_cons_of_mem _ ha)
        b (List.mem_cons_of_mem _ hb))
    | some q =>
      simp only [List.filterMap_cons, hgp, List.map_cons, List.nodup_cons]
      refine ⟨?_, ih hl.2 (fun a ha b hb => hg a (List.mem_cons_of_mem _ ha)
        b (List.mem_cons_of_mem _ hb))⟩
      intro hq
      rcases List.mem_map.mp hq with ⟨q', hq', hfst⟩
      rcases List.mem_filterMap.mp hq' with ⟨p', hp', hgp'⟩
      have hgp'' : g p' = some (q'.1, q'.2) := hgp'
      rw [hfst] at hgp''
      have : p.1 = p'.1 := hg p (List.mem_cons_self _ _) p'
        (List.mem_cons_of_mem _ hp') q.1 q.2 q'.2 hgp hgp''
      exact hl.1 (this ▸ List.mem_map_of_mem Prod.fst hp')

theorem filterMap_congr_mem {f g : α → Option β} (l : List α)
    (h : ∀ x ∈ l, f x = g x) : l.filterMap f = l.filterMap g := by
  induction l with
  | nil => rfl
  | cons x rest ih =>
    simp only [List.filterMap_cons, h x (List.mem_cons_self _ _),
      ih (fun y hy => h y (List.mem_cons_of_mem _ hy))]

theorem filterMap_guard_eq_filter (q : α → Bool) (l : List α) :
    l.filterMap (fun x => if q x then some x else none) = l.filter q := by
  induction l with
  | nil => rfl
  | cons x rest ih =>
    by_cases hx : q x <;> simp [List.filterMap_cons, List.filter_cons, hx, ih]

theorem filterMap_filter_eq_filterMap {β' : Type} (g : α → Option β') (q : α → Bool)
    (l : List α) (hq : ∀ x, q x = (g x).isSome) :
    (l.filter q).filterMap g = l.filterMap g := by
  induction l with
  | nil => rfl
  | cons x rest ih =>
    by_cases hx : q x
    · simp [List.filter_cons, hx, List.filterMap_cons, ih]
    · have hgx : g x = none := by
        cases hg : g x with
        | none => rfl
        | some v => exact absurd (by rw [hq x, hg]; rfl) hx
      simp [List.filter_cons, hx, List.filterMap_cons, hgx, ih]

end PureListLemmas

/-! ## Lemmas about string comparison and edge-id splitting -/

theorem lexLt_asymm : ∀ {a b : List Char}, lexLt a b = true → lexLt b a = false := by
  intro a
  induction a with
  | nil => intro b h; cases b <;> simp [lexLt] at h ⊢
  | cons c cs ih =>
    intro b h
    cases b with
    | nil => simp [lexLt] at h
    | cons d ds =>
      simp only [lexLt, Bool.or_eq_true, Bool.and_eq_true] at h
      rcases h with hlt | ⟨heq, hrest⟩
      · have hcd : c < d := of_decide_eq_true hlt
        have h1 : ¬d < c := lt_asymm hcd
        have h2 : ¬d = c := ne_of_gt hcd
        simp [lexLt, decide_eq_false h1, decide_eq_false h2]
      · have hc : c = d := of_decide_eq_true heq
        subst hc
        have hcc : decide (c < c) = false := decide_eq_false (lt_irrefl c)
        simp [lexLt, hcc, ih hrest]

theorem lexLt_conn : ∀ {a b : List Char}, lexLt a b = false → lexLt b a = false →
    a = b := by
  intro a
  induction a with
  | nil => intro b h _; cases b <;> simp [lexLt] at h ⊢
  | cons c cs ih =>
    intro b h h'
    cases b with
    | nil => simp [lexLt] at h'
    | cons d ds =>
      simp only [lexLt, Bool.or_eq_false_iff, Bool.and_eq_false_iff] at h h'
      have hcd : c = d := by
        have h1 : ¬c < d := by simpa using h.1
        have h2 : ¬d < c := by simpa using h'.1
        exact le_antisymm (le_of_not_lt h2) (le_of_not_lt h1)
      subst hcd
      rcases h.2 with he | hr
      · simp at he
      · rcases h'.2 with he' | hr'
        · simp at he'
        · rw [ih hr hr']

theorem string_mk_data (s : String) : String.mk s.data = s := rfl

theorem data_append (s t : String) : (s ++ t).data = s.data ++ t.data := rfl

theorem data_hyphen_join (s t : String) :
    (s ++ "-" ++ t).data = s.data ++ '-' :: t.data := by
  rw [data_append, data_append, List.append_assoc]
  rfl

theorem splitAux_cons_ne (c : Char) (cs acc : List Char) (hc : ¬c = '-') :
    splitAux (c :: cs) acc = splitAux cs (c :: acc) := by
  simp [splitAux, hc]

theorem splitAux_no_hyphen : ∀ (cs acc : List Char), '-' ∉ cs →
    splitAux cs acc = [String.mk (acc.reverse ++ cs)] := by
  intro cs
  induction cs with
  | nil => intro acc _; simp [splitAux]
  | cons c rest ih =>
    intro acc hns
    have hc : ¬c = '-' := fun h => hns (h ▸ List.mem_cons_self _ _)
    have hrest : '-' ∉ rest := fun h => hns (List.mem_cons_of_mem _ h)
    rw [splitAux_cons_ne c rest acc hc, ih (c :: acc) hrest]
    simp

theorem splitAux_hyphen : ∀ (a : List Char) (acc b : List Char), '-' ∉ a →
    splitAux (a ++ '-' :: b) acc = String.mk (acc.reverse ++ a) :: splitAux b [] := by
  intro a
  induction a with
  | nil => intro acc b _; simp [splitAux]
  | cons c rest ih =>
    intro acc b hns
    have hc : ¬c = '-' := fun h => hns (h ▸ List.mem_cons_self _ _)
    have hrest : '-' ∉ rest := fun h => hns (List.mem_cons_of_mem _ h)
    rw [List.cons_append, splitAux_cons_ne c _ _ hc, ih (c :: acc) b hrest]
    simp

theorem splitOnHyphen_join {a b : String} (ha : hyphenFree a) (hb : hyphenFree b) :
    splitOnHyphen (a ++ "-" ++ b) = [a, b] := by
  unfold splitOnHyphen
  rw [data_hyphen_join, splitAux_hyphen a.data [] b.data ha,
    splitAux_no_hyphen b.data [] hb]
  simp [string_mk_data]

theorem normalize_edge_id_comm (a b : String) :
    normalize_edge_id a b = normalize_edge_id b a := by
  unfold normalize_edge_id
  by_cases h1 : lexLt b.data a.data = true
  · rw [if_pos h1, if_neg (by simp [lexLt_asymm h1])]
  · have h1' : lexLt b.data a.data = false := by simpa using h1
    rw [if_neg h1]
    by_cases h2 : lexLt a.data b.data = true
    · rw [if_pos h2]
    · have h2' : lexLt a.data b.data = false := by simpa using h2
      have hd : a.data = b.data := lexLt_conn h2' h1'
      have hab : a = b := congrArg String.mk hd
      subst hab
      rw [if_neg h1]

theorem splitOnHyphen_normalize {a b : String} (ha : hyphenFree a)
    (hb : hyphenFree b) :
    splitOnHyphen (normalize_edge_id a b) =
      if lexLt b.data a.data then [b, a] else [a, b] := by
  unfold normalize_edge_id
  by_cases h : lexLt b.data a.data = true
  · rw [if_pos h, if_pos h, splitOnHyphen_join hb ha]
  · rw [if_neg h, if_neg h, splitOnHyphen_join ha hb]

/-! ## Lemmas about the error-translator scanners -/

theorem char_ne_of_isDigit {c x : Char} (h : c.isDigit = true)
    (hx : x.isDigit = false) : ¬c = x := by
  intro heq
  subst heq
  simp [h] at hx

theorem takeDigits_of_headDigit_false {cs : List Char}
    (h : headDigit cs = false) : takeDigits cs = ([], cs) := by
  cases cs with
  | nil => rfl
  | cons c t =>
    simp only [headDigit] at h
    simp [takeDigits, h]

theorem takeDigits_digits_append {d r : List Char}
    (hd : ∀ c ∈ d, c.isDigit = true) (hr : headDigit r = false) :
    takeDigits (d ++ r) = (d, r) := by
  induction d with
  | nil => simpa using takeDigits_of_headDigit_false hr
  | cons c t ih =>
    have hc := hd c (List.mem_cons_self _ _)
    simp [takeDigits, hc, ih (fun x hx => hd x (List.mem_cons_of_mem _ hx))]

theorem takeDigits_fst_isEmpty {cs : List Char} :
    (takeDigits cs).1.isEmpty = true ↔ headDigit cs = false := by
  cases cs with
  | nil => simp [takeDigits, headDigit]
  | cons c t =>
    by_cases h : c.isDigit <;> simp [takeDigits, headDigit, h]

theorem isSpaceChar_eq_false_of_digit {c : Char} (h : c.isDigit = true) :
    isSpaceChar c = false := by
  have h1 : ¬c = ' ' := char_ne_of_isDigit h (by decide)
  have h2 : ¬c = '\t' := char_ne_of_isDigit h (by decide)
  have h3 : ¬c = '\n' := char_ne_of_isDigit h (by decide)
  have h4 : ¬c = '\x0d' := char_ne_of_isDigit h (by decide)
  have h5 : ¬c = '\x0b' := char_ne_of_isDigit h (by decide)
  have h6 : ¬c = '\x0c' := char_ne_of_isDigit h (by decide)
  simp [isSpaceChar, h1, h2, h3, h4, h5, h6]

theorem matchEdgeTail_none {t : List Char} (h : headLParen t = false) :
    matchEdgeTail t = none := by
  cases t with
  | nil => rfl
  | cons c r =>
    simp only [headLParen] at h
    unfold matchEdgeTail
    split
    · rename_i rest heq
      injection heq with hc _
      rw [hc] at h
      simp at h
    · rfl

theorem nodeMatchAt_iff {xs : List Char} :
    nodeMatchAt xs = true ↔ ∃ t, xs = nodePat ++ t ∧ headDigit t = true := by
  unfold nodeMatchAt
  split
  · rename_i t
    constructor
    · intro h
      refine ⟨t, rfl, ?_⟩
      rcases hh : headDigit t with _ | _
      · rw [← takeDigits_fst_isEmpty] at hh
        simp [hh] at h
      · rfl
    · rintro ⟨t', heq, hd⟩
      have ht : t = t' := by
        simpa [nodePat] using heq
      subst ht
      cases hh : (takeDigits t).1.isEmpty with
      | false => simp [hh]
      | true =>
        rw [takeDigits_fst_isEmpty] at hh
        rw [hd] at hh
        simp at hh
  · rename_i h
    constructor
    · intro hfalse
      simp at hfalse
    · rintro ⟨t, rfl, _⟩
      exact absurd rfl (h t)

theorem edgeMatchAt_iff {xs : List Char} :
    edgeMatchAt xs = true ↔
      ∃ c t, xs = c :: 'd' :: 'g' :: 'e' :: ' ' :: t ∧ (c = 'E' ∨ c = 'e') ∧
        (matchEdgeTail t).isSome = true := by
  unfold edgeMatchAt
  split
  · rename_i c t
    constructor
    · intro h
      simp only [Bool.and_eq_true, Bool.or_eq_true, decide_eq_true_eq] at h
      exact ⟨c, t, rfl, h.1, h.2⟩
    · rintro ⟨c', t', heq, hc, hm⟩
      injection heq with h1 h2
      injection h2 with _ h3
      injection h3 with _ h4
      injection h4 with _ h5
      injection h5 with _ h6
      subst h1
      subst h6
      simp only [Bool.and_eq_true, Bool.or_eq_true, decide_eq_true_eq]
      exact ⟨hc, hm⟩
  · rename_i h
    constructor
    · intro hfalse
      simp at hfalse
    · rintro ⟨c, t, rfl, _, _⟩
      exact absurd rfl (h c t)

theorem bracketMatchAt_of_ne {c : Char} {cs : List Char} (h : ¬c = '[') :
    bracketMatchAt (c :: cs) = false := by
  unfold bracketMatchAt
  split
  · rename_i t heq
    injection heq with hc _
    exact absurd hc h
  · rfl

theorem rewriteBrackets_nil (rev : List (Nat × String)) (fuel : Nat) :
    rewriteBrackets rev fuel [] = [] := by
  cases fuel <;> rfl

theorem rewriteNode_nil (rev : List (Nat × String)) (fuel : Nat) (pw : Bool) :
    rewriteNode rev fuel pw [] = [] := by
  cases fuel <;> rfl

theorem rewriteEdge_nil (rev : List (Nat × String)) (fuel : Nat) (pw : Bool) :
    rewriteEdge rev fuel pw [] = [] := by
  cases fuel <;> rfl

theorem rewriteBrackets_cons_skip (rev : List (Nat × String)) (fuel : Nat)
    (c : Char) (cs : List Char) (h : bracketMatchAt (c :: cs) = false) :
    rewriteBrackets rev (fuel + 1) (c :: cs) = c :: rewriteBrackets rev fuel cs := by
  by_cases hc : c = '['
  · subst hc
    have hm : matchIndexList cs = none := by
      simp only [bracketMatchAt] at h
      cases m : matchIndexList cs with
      | none => rfl
      | some v => rw [m] at h; simp at h
    simp [rewriteBrackets, hm]
  · simp [rewriteBrackets, hc]

theorem rewriteNode_cons_skip (rev : List (Nat × String)) (fuel : Nat)
    (pw : Bool) (c : Char) (cs : List Char)
    (h : pw = true ∨ nodeMatchAt (c :: cs) = false) :
    rewriteNode rev (fuel + 1) pw (c :: cs)
      = c :: rewriteNode rev fuel (isWordChar c) cs := by
  by_cases hc : c = 'n'
  · subst hc
    cases pw with
    | true => simp [rewriteNode]
    | false =>
      have hm : nodeMatchAt ('n' :: cs) = false := by
        rcases h with h | h
        · simp at h
        · exact h
      have hw : isWordChar 'n' = true := by decide
      simp only [rewriteNode, hw]
      rw [if_pos (by decide)]
      split
      · rename_i rest
        cases ht : takeDigits rest with
        | mk l r =>
          cases l with
          | nil => simp [ht]
          | cons d ds =>
            have : nodeMatchAt ('n' :: 'o' :: 'd' :: 'e' :: ' ' :: rest) = true := by
              simp [nodeMatchAt, ht]
            rw [this] at hm
            simp at hm
      · rfl
  · cases pw with
    | true => simp [rewriteNode]
    | false => simp [rewriteNode, hc]

theorem rewriteEdge_cons_skip (rev : List (Nat × String)) (fuel : Nat)
    (pw : Bool) (c : Char) (cs : List Char)
    (h : pw = true ∨ edgeMatchAt (c :: cs) = false) :
    rewriteEdge rev (fuel + 1) pw (c :: cs)
      = c :: rewriteEdge rev fuel (isWordChar c) cs := by
  by_cases hc : c = 'E' ∨ c = 'e'
  · have hm : pw = true ∨ edgeMatchAt (c :: cs) = false := h
    cases pw with
    | true => rcases hc with rfl | rfl <;> simp [rewriteEdge]
    | false =>
      have hmat : edgeMatchAt (c :: cs) = false := by
        rcases hm with hm | hm
        · simp at hm
        · exact hm
      rcases hc with rfl | rfl
      · have hw : isWordChar 'E' = true := by decide
        simp only [rewriteEdge, hw]
        rw [if_pos (by decide)]
        split
        · rename_i rest
          cases ht : matchEdgeTail rest with
          | none => simp [ht]
          | some uvr =>
            have hcomp : edgeMatchAt ('E' :: 'd' :: 'g' :: 'e' :: ' ' :: rest) = true := by
              simp [edgeMatchAt, ht]
            rw [hcomp] at hmat
            simp at hmat
        · rfl
      · have hw : isWordChar 'e' = true := by decide
        simp only [rewriteEdge, hw]
        rw [if_pos (by decide)]
        split
        · rename_i rest
          cases ht : matchEdgeTail rest with
          | none => simp [ht]
          | some uvr =>
            have hcomp : edgeMatchAt ('e' :: 'd' :: 'g' :: 'e' :: ' ' :: rest) = true := by
              simp [edgeMatchAt, ht]
            rw [hcomp] at hmat
            simp at hmat
        · rfl
  · have h1 : ¬c = 'E' := fun hh => hc (Or.inl hh)
    have h2 : ¬c = 'e' := fun hh => hc (Or.inr hh)
    cases pw with
    | true => simp [rewriteEdge]
    | false => simp [rewriteEdge, h1, h2]

theorem rewriteBrackets_chunk (rev : List (Nat × String)) :
    ∀ (L R : List Char) (fuel : Nat), (∀ c ∈ L, ¬c = '[') →
      rewriteBrackets rev (L.length + fuel) (L ++ R)
        = L ++ rewriteBrackets rev fuel R := by
  intro L
  induction L with
  | nil => intro R fuel _; simp
  | cons c cs ih =>
    intro R fuel h
    have hc : ¬c = '[' := h c (List.mem_cons_self _ _)
    have hlen : (c :: cs).length + fuel = (cs.length + fuel) + 1 := by
      simp [List.length_cons]
      omega
    rw [hlen]
    rw [show (c :: cs) ++ R = c :: (cs ++ R) from rfl]
    rw [rewriteBrackets_cons_skip rev _ c _ (bracketMatchAt_of_ne hc)]
    rw [ih R fuel (fun x hx => h x (List.mem_cons_of_mem _ hx))]
    rfl

theorem rewriteNode_chunk (rev : List (Nat × String)) :
    ∀ (L R : List Char) (fuel : Nat) (pw : Bool), nodeSafeChunk L R = true →
      rewriteNode rev (L.length + fuel) pw (L ++ R)
        = L ++ rewriteNode rev fuel (prevWAfter pw L) R := by
  intro L
  induction L with
  | nil => intro R fuel pw _; simp [prevWAfter]
  | cons c cs ih =>
    intro R fuel pw h
    simp only [nodeSafeChunk, Bool.and_eq_true, Bool.not_eq_true'] at h
    have hlen : (c :: cs).length + fuel = (cs.length + fuel) + 1 := by
      simp [List.length_cons]
      omega
    rw [hlen]
    rw [show (c :: cs) ++ R = c :: (cs ++ R) from rfl]
    rw [rewriteNode_cons_skip rev _ pw c _ (Or.inr h.1)]
    rw [ih R fuel (isWordChar c) h.2]
    rfl

theorem rewriteEdge_chunk (rev : List (Nat × String)) :
    ∀ (L R : List Char) (fuel : Nat) (pw : Bool), edgeSafeChunk L R = true →
      rewriteEdge rev (L.length + fuel) pw (L ++ R)
        = L ++ rewriteEdge rev fuel (prevWAfter pw L) R := by
  intro L
  induction L with
  | nil => intro R fuel pw _; simp [prevWAfter]
  | cons c cs ih =>
    intro R fuel pw h
    simp only [edgeSafeChunk, Bool.and_eq_true, Bool.not_eq_true'] at h
    have hlen : (c :: cs).length + fuel = (cs.length + fuel) + 1 := by
      simp [List.length_cons]
      omega
    rw [hlen]
    rw [show (c :: cs) ++ R = c :: (cs ++ R) from rfl]
    rw [rewriteEdge_cons_skip rev _ pw c _ (Or.inr h.1)]
    rw [ih R fuel (isWordChar c) h.2]
    rfl

/-! ## Safety of rendered chunks for the later passes -/

theorem nodeMatchAt_head {c : Char} {t : List Char}
    (h : nodeMatchAt (c :: t) = true) : c = 'n' := by
  rw [nodeMatchAt_iff] at h
  obtain ⟨t2, heq, _⟩ := h
  simp only [nodePat, List.cons_append, List.nil_append, List.cons.injEq] at heq
  exact heq.1

theorem edgeMatchAt_head {c : Char} {t : List Char}
    (h : edgeMatchAt (c :: t) = true) : c = 'E' ∨ c = 'e' := by
  rw [edgeMatchAt_iff] at h
  obtain ⟨c2, t2, heq, hc, _⟩ := h
  injection heq with h1 _
  rw [h1]
  exact hc

theorem edgeMatchAt_second {a b : Char} {t : List Char}
    (h : edgeMatchAt (a :: b :: t) = true) : b = 'd' := by
  rw [edgeMatchAt_iff] at h
  obtain ⟨c2, t2, heq, _, _⟩ := h
  simp only [List.cons.injEq] at heq
  exact heq.2.1

theorem nodeMatchAt_false_of_head {c : Char} (t : List Char) (h : ¬c = 'n') :
    nodeMatchAt (c :: t) = false := by
  cases hm : nodeMatchAt (c :: t) with
  | false => rfl
  | true => exact absurd (nodeMatchAt_head hm) h

theorem edgeMatchAt_false_of_head {c : Char} (t : List Char)
    (h1 : ¬c = 'E') (h2 : ¬c = 'e') : edgeMatchAt (c :: t) = false := by
  cases hm : edgeMatchAt (c :: t) with
  | false => rfl
  | true =>
    rcases edgeMatchAt_head hm with h | h
    · exact absurd h h1
    · exact absurd h h2

theorem edgeMatchAt_false_of_second {a b : Char} (t : List Char)
    (h : ¬b = 'd') : edgeMatchAt (a :: b :: t) = false := by
  cases hm : edgeMatchAt (a :: b :: t) with
  | false => rfl
  | true => exact absurd (edgeMatchAt_second hm) h

theorem matchEdgeTail_isSome_headLParen {t : List Char}
    (h : (matchEdgeTail t).isSome = true) : headLParen t = true := by
  cases hl : headLParen t with
  | true => rfl
  | false =>
    rw [matchEdgeTail_none hl] at h
    exact absurd h (by decide)

theorem nodeSafeChunk_append : ∀ (A : List Char) {B R : List Char},
    nodeSafeChunk A (B ++ R) = true → nodeSafeChunk B R = true →
    nodeSafeChunk (A ++ B) R = true := by
  intro A
  induction A with
  | nil => intro B R _ hB; simpa using hB
  | cons c cs ih =>
    intro B R hA hB
    simp only [nodeSafeChunk, Bool.and_eq_true, Bool.not_eq_true',
      List.append_eq] at hA
    simp only [List.cons_append, nodeSafeChunk, Bool.and_eq_true,
      Bool.not_eq_true', List.append_eq, List.append_assoc]
    exact ⟨hA.1, ih hA.2 hB⟩

theorem edgeSafeChunk_append : ∀ (A : List Char) {B R : List Char},
    edgeSafeChunk A (B ++ R) = true → edgeSafeChunk B R = true →
    edgeSafeChunk (A ++ B) R = true := by
  intro A
  induction A with
  | nil => intro B R _ hB; simpa using hB
  | cons c cs ih =>
    intro B R hA hB
    simp only [edgeSafeChunk, Bool.and_eq_true, Bool.not_eq_true',
      List.append_eq] at hA
    simp only [List.cons_append, edgeSafeChunk, Bool.and_eq_true,
      Bool.not_eq_true', List.append_eq, List.append_assoc]
    exact ⟨hA.1, ih hA.2 hB⟩

theorem nodeSafeChunk_no_n : ∀ (L R : List Char),
    (∀ c ∈ L, ¬c = 'n') → nodeSafeChunk L R = true := by
  intro L
  induction L with
  | nil => intro R _; rfl
  | cons c cs ih =>
    intro R h
    simp only [nodeSafeChunk, Bool.and_eq_true, Bool.not_eq_true']
    exact ⟨nodeMatchAt_false_of_head _ (h c (List.mem_cons_self _ _)),
      ih R (fun x hx => h x (List.mem_cons_of_mem _ hx))⟩

theorem edgeSafeChunk_no_Ee : ∀ (L R : List Char),
    (∀ c ∈ L, ¬c = 'E' ∧ ¬c = 'e') → edgeSafeChunk L R = true := by
  intro L
  induction L with
  | nil => intro R _; rfl
  | cons c cs ih =>
    intro R h
    simp only [edgeSafeChunk, Bool.and_eq_true, Bool.not_eq_true']
    exact ⟨edgeMatchAt_false_of_head _ (h c (List.mem_cons_self _ _)).1
        (h c (List.mem_cons_self _ _)).2,
      ih R (fun x hx => h x (List.mem_cons_of_mem _ hx))⟩

theorem nodeSafeChunk_idchars : ∀ (L R : List Char),
    (∀ c ∈ L, idCharOK c = true) →
    (∀ t, R = 'o' :: 'd' :: 'e' :: ' ' :: t → headDigit t = false) →
    nodeSafeChunk L R = true := by
  intro L
  induction L with
  | nil => intro R _ _; rfl
  | cons c cs ih =>
    intro R hL hR
    simp only [nodeSafeChunk, Bool.and_eq_true, Bool.not_eq_true']
    refine ⟨?_, ih R (fun x hx => hL x (List.mem_cons_of_mem _ hx)) hR⟩
    cases hm : nodeMatchAt (c :: (cs ++ R)) with
    | false => rfl
    | true =>
      exfalso
      rw [nodeMatchAt_iff] at hm
      obtain ⟨t, heq, hd⟩ := hm
      simp only [nodePat, List.cons_append, List.nil_append] at heq
      injection heq with _ h12
      cases cs with
      | nil =>
        simp only [List.nil_append] at h12
        rw [hR t h12] at hd
        exact absurd hd (by decide)
      | cons a as =>
        simp only [List.cons_append] at h12
        injection h12 with ha _
        have hok := hL a (by simp)
        rw [ha] at hok
        exact absurd hok (by decide)

theorem edgeSafeChunk_idchars : ∀ (L R : List Char),
    (∀ c ∈ L, idCharOK c = true) →
    (∀ t, R = 'd' :: 'g' :: 'e' :: ' ' :: t → headLParen t = false) →
    edgeSafeChunk L R = true := by
  intro L
  induction L with
  | nil => intro R _ _; rfl
  | cons c cs ih =>
    intro R hL hR
    simp only [edgeSafeChunk, Bool.and_eq_true, Bool.not_eq_true']
    refine ⟨?_, ih R (fun x hx => hL x (List.mem_cons_of_mem _ hx)) hR⟩
    cases hm : edgeMatchAt (c :: (cs ++ R)) with
    | false => rfl
    | true =>
      exfalso
      rw [edgeMatchAt_iff] at hm
      obtain ⟨c2, t, heq, _, hsome⟩ := hm
      injection heq with _ h12
      cases cs with
      | nil =>
        simp only [List.nil_append] at h12
        rw [matchEdgeTail_none (hR t h12)] at hsome
        exact absurd hsome (by decide)
      | cons a as =>
        simp only [List.cons_append] at h12
        injection h12 with ha _
        have hok := hL a (by simp)
        rw [ha] at hok
        exact absurd hok (by decide)

theorem nodeSafeChunk_lit : ∀ (L R : List Char),
    (∀ c ∈ L, litChar c = true) → nodeContFalse R →
    nodeSafeChunk L R = true := by
  intro L
  induction L with
  | nil => intro R _ _; rfl
  | cons c cs ih =>
    intro R hL hR
    simp only [nodeSafeChunk, Bool.and_eq_true, Bool.not_eq_true']
    refine ⟨?_, ih R (fun x hx => hL x (List.mem_cons_of_mem _ hx)) hR⟩
    cases hm : nodeMatchAt (c :: (cs ++ R)) with
    | false => rfl
    | true =>
      exfalso
      obtain ⟨h1, h2, h3, h4, h5⟩ := hR
      rw [nodeMatchAt_iff] at hm
      obtain ⟨t, heq, hd⟩ := hm
      simp only [nodePat, List.cons_append, List.nil_append] at heq
      injection heq with _ h12
      cases cs with
      | nil =>
        simp only [List.nil_append] at h12
        rw [h2 t h12] at hd
        exact absurd hd (by decide)
      | cons a as =>
        simp only [List.cons_append] at h12
        injection h12 with _ h23
        cases as with
        | nil =>
          simp only [List.nil_append] at h23
          rw [h3 t h23] at hd
          exact absurd hd (by decide)
        | cons b bs =>
          simp only [List.cons_append] at h23
          injection h23 with _ h34
          cases bs with
          | nil =>
            simp only [List.nil_append] at h34
            rw [h4 t h34] at hd
            exact absurd hd (by decide)
          | cons d2 ds =>
            simp only [List.cons_append] at h34
            injection h34 with _ h45
            cases ds with
            | nil =>
              simp only [List.nil_append] at h45
              rw [h5 t h45] at hd
              exact absurd hd (by decide)
            | cons e2 es =>
              simp only [List.cons_append] at h45
              injection h45 with _ h56
              cases es with
              | nil =>
                simp only [List.nil_append] at h56
                rw [← h56, h1] at hd
                exact absurd hd (by decide)
              | cons f fs =>
                simp only [List.cons_append] at h56
                have hf : litChar f = true := hL f (by simp)
                rw [← h56] at hd
                simp only [headDigit] at hd
                simp [litChar, hd] at hf

theorem edgeSafeChunk_lit : ∀ (L R : List Char),
    (∀ c ∈ L, litChar c = true) → edgeContFalse R →
    edgeSafeChunk L R = true := by
  intro L
  induction L with
  | nil => intro R _ _; rfl
  | cons c cs ih =>
    intro R hL hR
    simp only [edgeSafeChunk, Bool.and_eq_true, Bool.not_eq_true']
    refine ⟨?_, ih R (fun x hx => hL x (List.mem_cons_of_mem _ hx)) hR⟩
    cases hm : edgeMatchAt (c :: (cs ++ R)) with
    | false => rfl
    | true =>
      exfalso
      obtain ⟨h1, h2, h3, h4, h5⟩ := hR
      rw [edgeMatchAt_iff] at hm
      obtain ⟨c2, t, heq, _, hsome⟩ := hm
      injection heq with _ h12
      cases cs with
      | nil =>
        simp only [List.nil_append] at h12
        rw [matchEdgeTail_none (h2 t h12)] at hsome
        exact absurd hsome (by decide)
      | cons a as =>
        simp only [List.cons_append] at h12
        injection h12 with _ h23
        cases as with
        | nil =>
          simp only [List.nil_append] at h23
          rw [matchEdgeTail_none (h3 t h23)] at hsome
          exact absurd hsome (by decide)
        | cons b bs =>
          simp only [List.cons_append] at h23
          injection h23 with _ h34
          cases bs with
          | nil =>
            simp only [List.nil_append] at h34
            rw [matchEdgeTail_none (h4 t h34)] at hsome
            exact absurd hsome (by decide)
          | cons d2 ds =>
            simp only [List.cons_append] at h34
            injection h34 with _ h45
            cases ds with
            | nil =>
              simp only [List.nil_append] at h45
              rw [matchEdgeTail_none (h5 t h45)] at hsome
              exact absurd hsome (by decide)
            | cons e2 es =>
              simp only [List.cons_append] at h45
              injection h45 with _ h56
              cases es with
              | nil =>
                simp only [List.nil_append] at h56
                rw [← h56] at hsome
                rw [matchEdgeTail_none h1] at hsome
                exact absurd hsome (by decide)
              | cons f fs =>
                simp only [List.cons_append] at h56
                have hf : litChar f = true := hL f (by simp)
                have hlp := matchEdgeTail_isSome_headLParen hsome
                rw [← h56] at hlp
                simp only [headLParen, decide_eq_true_eq] at hlp
                rw [hlp] at hf
                exact absurd hf (by decide)

theorem prevWAfter_append (pw : Bool) (A B : List Char) :
    prevWAfter pw (A ++ B) = prevWAfter (prevWAfter pw A) B :=
  List.foldl_append _ _ _ _

theorem prevWAfter_nonempty (pwa pwb : Bool) {s : List Char} (h : ¬s = []) :
    prevWAfter pwa s = prevWAfter pwb s := by
  cases s with
  | nil => exact absurd rfl h
  | cons c cs => rfl

theorem prevWAfter_concat_false (pw : Bool) (A : List Char) {c : Char}
    (hc : isWordChar c = false) : prevWAfter pw (A ++ [c]) = false := by
  rw [prevWAfter_append]
  simp [prevWAfter, hc]

theorem prevWAfter_edge_render (pw : Bool) (c : Char) (d1 d2 : List Char) :
    prevWAfter pw (c :: 'd' :: 'g' :: 'e' :: ' ' :: '(' ::
      (d1 ++ ',' :: ' ' :: (d2 ++ [')']))) = false := by
  show prevWAfter (isWordChar '(') (d1 ++ ',' :: ' ' :: (d2 ++ [')'])) = false
  rw [prevWAfter_append]
  show prevWAfter (isWordChar ' ') (d2 ++ [')']) = false
  exact prevWAfter_concat_false _ _ (by decide)

theorem litChar_spec {c : Char} (h : litChar c = true) :
    ¬c = '[' ∧ ¬c = '(' ∧ c.isDigit = false := by
  simp only [litChar, Bool.and_eq_true, Bool.not_eq_true', decide_eq_false_iff_not] at h
  exact ⟨h.1.1, h.1.2, h.2⟩

theorem litChunkOK_spec {s : List Char} (h : litChunkOK s = true) :
    ¬s = [] ∧ ∀ c ∈ s, litChar c = true := by
  simp only [litChunkOK, Bool.and_eq_true, Bool.not_eq_true',
    List.isEmpty_eq_false, List.all_eq_true] at h
  exact ⟨by simpa using h.1, h.2⟩

theorem digitsChunkOK_spec {d : List Char} (h : digitsChunkOK d = true) :
    ¬d = [] ∧ ∀ c ∈ d, c.isDigit = true := by
  simp only [digitsChunkOK, Bool.and_eq_true, Bool.not_eq_true',
    List.isEmpty_eq_false, List.all_eq_true] at h
  exact ⟨by simpa using h.1, h.2⟩

theorem digitChar_isDigit {m : Nat} (h : m < 10) :
    (Nat.digitChar m).isDigit = true := by
  interval_cases m <;> decide

theorem toDigitsCore_all_digits : ∀ (fuel n : Nat) (acc : List Char),
    (∀ c ∈ acc, c.isDigit = true) →
    ∀ c ∈ Nat.toDigitsCore 10 fuel n acc, c.isDigit = true := by
  intro fuel
  induction fuel with
  | zero => intro n acc hacc; simpa [Nat.toDigitsCore] using hacc
  | succ f ih =>
    intro n acc hacc
    simp only [Nat.toDigitsCore]
    split
    · intro c hc
      rcases List.mem_cons.mp hc with rfl | h
      · exact digitChar_isDigit (Nat.mod_lt _ (by decide))
      · exact hacc c h
    · refine ih _ _ ?_
      intro c hc
      rcases List.mem_cons.mp hc with rfl | h
      · exact digitChar_isDigit (Nat.mod_lt _ (by decide))
      · exact hacc c h

theorem repr_all_digits (n : Nat) : ∀ c ∈ (Nat.repr n).data, c.isDigit = true := by
  intro c hc
  have hd : (Nat.repr n).data = Nat.toDigitsCore 10 (n + 1) n [] := rfl
  rw [hd] at hc
  exact toDigitsCore_all_digits _ _ [] (by intro x hx; simp at hx) c hc

theorem idCharOK_of_digit {c : Char} (h : c.isDigit = true) :
    idCharOK c = true := by
  have h1 : ¬c = 'o' := char_ne_of_isDigit h (by decide)
  have h2 : ¬c = 'd' := char_ne_of_isDigit h (by decide)
  have h3 : ¬c = 'g' := char_ne_of_isDigit h (by decide)
  have h4 : ¬c = 'e' := char_ne_of_isDigit h (by decide)
  simp [idCharOK, h, h1, h2, h3, h4]

theorem idOf_all_idCharOK {rev : List (Nat × String)}
    (hrev : revTokensOK rev = true) (n : Nat) :
    ∀ c ∈ (lookupOr rev n).data, idCharOK c = true := by
  unfold lookupOr
  cases hl : pyLookup rev n with
  | some s =>
    have hmem := mem_of_pyLookup hl
    have hs : idStrOK s = true := by
      have := (List.all_eq_true.mp hrev) _ hmem
      simpa using this
    simp only [Option.getD]
    unfold idStrOK at hs
    intro c hc
    cases hds : s.data with
    | nil => rw [hds] at hc; simp at hc
    | cons c0 cr =>
      rw [hds] at hs hc
      simp only [Bool.and_eq_true, List.all_eq_true] at hs
      exact hs.2 c hc
  | none =>
    simp only [Option.getD]
    intro c hc
    have hd : ("?" ++ toString n).data = '?' :: (Nat.repr n).data := rfl
    rw [hd] at hc
    rcases List.mem_cons.mp hc with rfl | h
    · decide
    · exact idCharOK_of_digit (repr_all_digits n c h)

theorem idOf_all_idCharOK_chunks {rev : List (Nat × String)}
    (hrev : revTokensOK rev = true) (ds : List (List Char)) :
    ∀ i ∈ ds.map (idOf rev), ∀ c ∈ i, idCharOK c = true := by
  intro i hi c hc
  rcases List.mem_map.mp hi with ⟨d, _, rfl⟩
  exact idOf_all_idCharOK hrev (digitsToNat d) c hc

theorem nodeSafe_interTail_cont (is : List (List Char)) (R t : List Char)
    (h : interTail is ++ ']' :: R = 'o' :: 'd' :: 'e' :: ' ' :: t) :
    headDigit t = false := by
  cases is with
  | nil =>
    simp only [interTail, List.nil_append, List.cons.injEq] at h
    exact absurd h.1 (by decide)
  | cons j js =>
    simp only [interTail, List.cons_append, List.cons.injEq] at h
    exact absurd h.1 (by decide)

theorem edgeSafe_interTail_cont (is : List (List Char)) (R t : List Char)
    (h : interTail is ++ ']' :: R = 'd' :: 'g' :: 'e' :: ' ' :: t) :
    headLParen t = false := by
  cases is with
  | nil =>
    simp only [interTail, List.nil_append, List.cons.injEq] at h
    exact absurd h.1 (by decide)
  | cons j js =>
    simp only [interTail, List.cons_append, List.cons.injEq] at h
    exact absurd h.1 (by decide)

theorem nodeSafeChunk_interTail : ∀ (is : List (List Char)) (R : List Char),
    (∀ i ∈ is, ∀ c ∈ i, idCharOK c = true) →
    nodeSafeChunk (interTail is) (']' :: R) = true := by
  intro is
  induction is with
  | nil => intro R _; rfl
  | cons i is2 ih =>
    intro R h
    simp only [interTail]
    simp only [nodeSafeChunk, Bool.and_eq_true, Bool.not_eq_true',
      List.cons_append, List.append_eq]
    refine ⟨nodeMatchAt_false_of_head _ (by decide),
      nodeMatchAt_false_of_head _ (by decide), ?_⟩
    exact nodeSafeChunk_append i
      (nodeSafeChunk_idchars i _ (h i (by simp))
        (nodeSafe_interTail_cont is2 R))
      (ih R (fun j hj => h j (List.mem_cons_of_mem _ hj)))

theorem edgeSafeChunk_interTail : ∀ (is : List (List Char)) (R : List Char),
    (∀ i ∈ is, ∀ c ∈ i, idCharOK c = true) →
    edgeSafeChunk (interTail is) (']' :: R) = true := by
  intro is
  induction is with
  | nil => intro R _; rfl
  | cons i is2 ih =>
    intro R h
    simp only [interTail]
    simp only [edgeSafeChunk, Bool.and_eq_true, Bool.not_eq_true',
      List.cons_append, List.append_eq]
    refine ⟨edgeMatchAt_false_of_head _ (by decide) (by decide),
      edgeMatchAt_false_of_head _ (by decide) (by decide), ?_⟩
    exact edgeSafeChunk_append i
      (edgeSafeChunk_idchars i _ (h i (by simp))
        (edgeSafe_interTail_cont is2 R))
      (ih R (fun j hj => h j (List.mem_cons_of_mem _ hj)))

theorem nodeSafeChunk_idxRender (is : List (List Char)) (R : List Char)
    (h : ∀ i ∈ is, ∀ c ∈ i, idCharOK c = true) :
    nodeSafeChunk ('[' :: (interChunks is ++ [']'])) R = true := by
  simp only [nodeSafeChunk, Bool.and_eq_true, Bool.not_eq_true']
  refine ⟨nodeMatchAt_false_of_head _ (by decide), ?_⟩
  cases is with
  | nil =>
    simp only [interChunks, List.nil_append]
    simp only [nodeSafeChunk, Bool.and_eq_true, Bool.not_eq_true']
    exact ⟨nodeMatchAt_false_of_head _ (by decide), trivial⟩
  | cons i is2 =>
    simp only [interChunks]
    have hshape : (i ++ interTail is2) ++ [']'] = i ++ (interTail is2 ++ [']']) :=
      List.append_assoc _ _ _
    rw [hshape]
    refine nodeSafeChunk_append i ?_ ?_
    · have hshape2 : (interTail is2 ++ [']']) ++ R = interTail is2 ++ ']' :: R := by
        rw [List.append_assoc]
        rfl
      rw [hshape2]
      exact nodeSafeChunk_idchars i _ (h i (by simp))
        (nodeSafe_interTail_cont is2 R)
    · refine nodeSafeChunk_append (interTail is2) ?_ ?_
      · show nodeSafeChunk (interTail is2) (']' :: R) = true
        exact nodeSafeChunk_interTail is2 R (fun j hj => h j (List.mem_cons_of_mem _ hj))
      · simp only [nodeSafeChunk, Bool.and_eq_true, Bool.not_eq_true']
        exact ⟨nodeMatchAt_false_of_head _ (by decide), trivial⟩

theorem edgeSafeChunk_idxRender (is : List (List Char)) (R : List Char)
    (h : ∀ i ∈ is, ∀ c ∈ i, idCharOK c = true) :
    edgeSafeChunk ('[' :: (interChunks is ++ [']'])) R = true := by
  simp only [edgeSafeChunk, Bool.and_eq_true, Bool.not_eq_true']
  refine ⟨edgeMatchAt_false_of_head _ (by decide) (by decide), ?_⟩
  cases is with
  | nil =>
    simp only [interChunks, List.nil_append]
    simp only [edgeSafeChunk, Bool.and_eq_true, Bool.not_eq_true']
    exact ⟨edgeMatchAt_false_of_head _ (by decide) (by decide), trivial⟩
  | cons i is2 =>
    simp only [interChunks]
    have hshape : (i ++ interTail is2) ++ [']'] = i ++ (interTail is2 ++ [']']) :=
      List.append_assoc _ _ _
    rw [hshape]
    refine edgeSafeChunk_append i ?_ ?_
    · have hshape2 : (interTail is2 ++ [']']) ++ R = interTail is2 ++ ']' :: R := by
        rw [List.append_assoc]
        rfl
      rw [hshape2]
      exact edgeSafeChunk_idchars i _ (h i (by simp))
        (edgeSafe_interTail_cont is2 R)
    · refine edgeSafeChunk_append (interTail is2) ?_ ?_
      · show edgeSafeChunk (interTail is2) (']' :: R) = true
        exact edgeSafeChunk_interTail is2 R (fun j hj => h j (List.mem_cons_of_mem _ hj))
      · simp only [edgeSafeChunk, Bool.and_eq_true, Bool.not_eq_true']
        exact ⟨edgeMatchAt_false_of_head _ (by decide) (by decide), trivial⟩

theorem edgeSafeChunk_nodePat (R : List Char) : edgeSafeChunk nodePat R = true := by
  simp only [nodePat, edgeSafeChunk, Bool.and_eq_true, Bool.not_eq_true',
    List.cons_append, List.nil_append]
  exact ⟨edgeMatchAt_false_of_head _ (by decide) (by decide),
    edgeMatchAt_false_of_head _ (by decide) (by decide),
    edgeMatchAt_false_of_head _ (by decide) (by decide),
    edgeMatchAt_false_of_second _ (by decide),
    edgeMatchAt_false_of_head _ (by decide) (by decide), trivial⟩

/-! ## Head shapes of rendered well-formed segment lists -/

theorem msgRender1_after_lit_shape (rev : List (Nat × String)) :
    ∀ (segs : List ErrSeg) (pw : Bool), segsOK pw true segs = true →
    msgRender1 rev segs = [] ∨
    (∃ t, msgRender1 rev segs = '[' :: t) ∨
    (∃ t, msgRender1 rev segs = 'n' :: 'o' :: t) ∨
    (∃ t, msgRender1 rev segs = 'E' :: 'd' :: t) ∨
    (∃ t, msgRender1 rev segs = 'e' :: 'd' :: t) := by
  intro segs pw h
  cases segs with
  | nil => exact Or.inl rfl
  | cons seg rest =>
    cases seg with
    | lit s => simp [segsOK] at h
    | idx ds =>
      exact Or.inr (Or.inl
        ⟨interChunks (ds.map (idOf rev)) ++ ']' :: msgRender1 rev rest,
          by simp [msgRender1, segRender1]⟩)
    | node d =>
      refine Or.inr (Or.inr (Or.inl ⟨('d' :: 'e' :: ' ' :: d) ++ msgRender1 rev rest, ?_⟩))
      simp [msgRender1, segRender1, nodePat]
    | edge cap d1 d2 =>
      cases cap with
      | true =>
        refine Or.inr (Or.inr (Or.inr (Or.inl
          ⟨('g' :: 'e' :: ' ' :: '(' :: (d1 ++ ',' :: ' ' :: (d2 ++ [')'])))
            ++ msgRender1 rev rest, ?_⟩)))
        simp [msgRender1, segRender1]
      | false =>
        refine Or.inr (Or.inr (Or.inr (Or.inr
          ⟨('g' :: 'e' :: ' ' :: '(' :: (d1 ++ ',' :: ' ' :: (d2 ++ [')'])))
            ++ msgRender1 rev rest, ?_⟩)))
        simp [msgRender1, segRender1]

theorem msgRender2_after_lit_shape (rev : List (Nat × String)) :
    ∀ (segs : List ErrSeg) (pw : Bool), segsOK pw true segs = true →
    msgRender2 rev segs = [] ∨
    (∃ t, msgRender2 rev segs = '[' :: t) ∨
    (∃ t, msgRender2 rev segs = 'n' :: 'o' :: t) ∨
    (∃ t, msgRender2 rev segs = 'E' :: 'd' :: t) ∨
    (∃ t, msgRender2 rev segs = 'e' :: 'd' :: t) := by
  intro segs pw h
  cases segs with
  | nil => exact Or.inl rfl
  | cons seg rest =>
    cases seg with
    | lit s => simp [segsOK] at h
    | idx ds =>
      exact Or.inr (Or.inl
        ⟨interChunks (ds.map (idOf rev)) ++ ']' :: msgRender2 rev rest,
          by simp [msgRender2, segRender2]⟩)
    | node d =>
      refine Or.inr (Or.inr (Or.inl
        ⟨('d' :: 'e' :: ' ' :: idOf rev d) ++ msgRender2 rev rest, ?_⟩))
      simp [msgRender2, segRender2, nodePat]
    | edge cap d1 d2 =>
      cases cap with
      | true =>
        refine Or.inr (Or.inr (Or.inr (Or.inl
          ⟨('g' :: 'e' :: ' ' :: '(' :: (d1 ++ ',' :: ' ' :: (d2 ++ [')'])))
            ++ msgRender2 rev rest, ?_⟩)))
        simp [msgRender2, segRender2]
      | false =>
        refine Or.inr (Or.inr (Or.inr (Or.inr
          ⟨('g' :: 'e' :: ' ' :: '(' :: (d1 ++ ',' :: ' ' :: (d2 ++ [')'])))
            ++ msgRender2 rev rest, ?_⟩)))
        simp [msgRender2, segRender2]

theorem msgRender1_headDigit (rev : List (Nat × String)) :
    ∀ (segs : List ErrSeg) (pw pl : Bool), segsOK pw pl segs = true →
    headDigit (msgRender1 rev segs) = false := by
  intro segs pw pl h
  cases segs with
  | nil => rfl
  | cons seg rest =>
    cases seg with
    | lit s =>
      have hlc : litChunkOK s = true := by
        simp only [segsOK, Bool.and_eq_true] at h
        exact h.1.1
      obtain ⟨hne, hall⟩ := litChunkOK_spec hlc
      cases s with
      | nil => exact absurd rfl hne
      | cons c cs =>
        simp only [msgRender1, segRender1, List.cons_append, headDigit]
        exact (litChar_spec (hall c (by simp))).2.2
    | idx ds => rfl
    | node d => rfl
    | edge cap d1 d2 => cases cap <;> rfl

theorem msgRender2_headLParen (rev : List (Nat × String)) :
    ∀ (segs : List ErrSeg) (pw pl : Bool), segsOK pw pl segs = true →
    headLParen (msgRender2 rev segs) = false := by
  intro segs pw pl h
  cases segs with
  | nil => rfl
  | cons seg rest =>
    cases seg with
    | lit s =>
      have hlc : litChunkOK s = true := by
        simp only [segsOK, Bool.and_eq_true] at h
        exact h.1.1
      obtain ⟨hne, hall⟩ := litChunkOK_spec hlc
      cases s with
      | nil => exact absurd rfl hne
      | cons c cs =>
        simp only [msgRender2, segRender2, List.cons_append, headLParen]
        simp [(litChar_spec (hall c (by simp))).2.1]
    | idx ds => rfl
    | node d => rfl
    | edge cap d1 d2 => cases cap <;> rfl

theorem headDigit_lit_append (rev : List (Nat × String)) {s1 : List Char}
    (hall : ∀ c ∈ s1, litChar c = true) {rest : List ErrSeg} {pw pl : Bool}
    (h : segsOK pw pl rest = true) :
    headDigit (s1 ++ msgRender1 rev rest) = false := by
  cases s1 with
  | nil => simpa using msgRender1_headDigit rev rest pw pl h
  | cons c cs =>
    simp only [List.cons_append, headDigit]
    exact (litChar_spec (hall c (by simp))).2.2

theorem headLParen_lit_append (rev : List (Nat × String)) {s1 : List Char}
    (hall : ∀ c ∈ s1, litChar c = true) {rest : List ErrSeg} {pw pl : Bool}
    (h : segsOK pw pl rest = true) :
    headLParen (s1 ++ msgRender2 rev rest) = false := by
  cases s1 with
  | nil => simpa using msgRender2_headLParen rev rest pw pl h
  | cons c cs =>
    simp only [List.cons_append, headLParen]
    simp [(litChar_spec (hall c (by simp))).2.1]

theorem msgRender1_ne_head (rev : List (Nat × String)) {rest : List ErrSeg}
    {pw : Bool} (h : segsOK pw true rest = true) {x : Char} {t : List Char}
    (hx1 : ¬x = '[') (hx2 : ¬x = 'n') (hx3 : ¬x = 'E') (hx4 : ¬x = 'e')
    (heq : msgRender1 rev rest = x :: t) : False := by
  rcases msgRender1_after_lit_shape rev rest pw h with
    hn | ⟨u, hu⟩ | ⟨u, hu⟩ | ⟨u, hu⟩ | ⟨u, hu⟩
  · rw [hn] at heq; exact absurd heq (by simp)
  · rw [hu] at heq; injection heq with h1 _; exact hx1 h1.symm
  · rw [hu] at heq; injection heq with h1 _; exact hx2 h1.symm
  · rw [hu] at heq; injection heq with h1 _; exact hx3 h1.symm
  · rw [hu] at heq; injection heq with h1 _; exact hx4 h1.symm

theorem msgRender1_ne_e_space (rev : List (Nat × String)) {rest : List ErrSeg}
    {pw : Bool} (h : segsOK pw true rest = true) {t : List Char}
    (heq : msgRender1 rev rest = 'e' :: ' ' :: t) : False := by
  rcases msgRender1_after_lit_shape rev rest pw h with
    hn | ⟨u, hu⟩ | ⟨u, hu⟩ | ⟨u, hu⟩ | ⟨u, hu⟩
  · rw [hn] at heq; exact absurd heq (by simp)
  · rw [hu] at heq; injection heq with h1 _; exact absurd h1 (by decide)
  · rw [hu] at heq; injection heq with h1 _; exact absurd h1 (by decide)
  · rw [hu] at heq; injection heq with h1 _; exact absurd h1 (by decide)
  · rw [hu] at heq
    injection heq with _ h2
    injection h2 with h3 _
    exact absurd h3 (by decide)

theorem msgRender2_ne_head (rev : List (Nat × String)) {rest : List ErrSeg}
    {pw : Bool} (h : segsOK pw true rest = true) {x : Char} {t : List Char}
    (hx1 : ¬x = '[') (hx2 : ¬x = 'n') (hx3 : ¬x = 'E') (hx4 : ¬x = 'e')
    (heq : msgRender2 rev rest = x :: t) : False := by
  rcases msgRender2_after_lit_shape rev rest pw h with
    hn | ⟨u, hu⟩ | ⟨u, hu⟩ | ⟨u, hu⟩ | ⟨u, hu⟩
  · rw [hn] at heq; exact absurd heq (by simp)
  · rw [hu] at heq; injection heq with h1 _; exact hx1 h1.symm
  · rw [hu] at heq; injection heq with h1 _; exact hx2 h1.symm
  · rw [hu] at heq; injection heq with h1 _; exact hx3 h1.symm
  · rw [hu] at heq; injection heq with h1 _; exact hx4 h1.symm

theorem msgRender2_ne_e_space (rev : List (Nat × String)) {rest : List ErrSeg}
    {pw : Bool} (h : segsOK pw true rest = true) {t : List Char}
    (heq : msgRender2 rev rest = 'e' :: ' ' :: t) : False := by
  rcases msgRender2_after_lit_shape rev rest pw h with
    hn | ⟨u, hu⟩ | ⟨u, hu⟩ | ⟨u, hu⟩ | ⟨u, hu⟩
  · rw [hn] at heq; exact absurd heq (by simp)
  · rw [hu] at heq; injection heq with h1 _; exact absurd h1 (by decide)
  · rw [hu] at heq; injection heq with h1 _; exact absurd h1 (by decide)
  · rw [hu] at heq; injection heq with h1 _; exact absurd h1 (by decide)
  · rw [hu] at heq
    injection heq with _ h2
    injection h2 with h3 _
    exact absurd h3 (by decide)

/-! ## Continuation conditions of rendered well-formed segment lists -/

theorem msgRender1_nodeContFalse (rev : List (Nat × String)) :
    ∀ (segs : List ErrSeg) (pw pl : Bool), segsOK pw pl segs = true →
    nodeContFalse (msgRender1 rev segs) := by
  intro segs pw pl h
  cases segs with
  | nil =>
    exact ⟨rfl, fun t ht => by simp [msgRender1] at ht,
      fun t ht => by simp [msgRender1] at ht,
      fun t ht => by simp [msgRender1] at ht,
      fun t ht => by simp [msgRender1] at ht⟩
  | cons seg rest =>
    cases seg with
    | idx ds =>
      have hsh : msgRender1 rev (ErrSeg.idx ds :: rest)
          = '[' :: ((interChunks (ds.map (idOf rev)) ++ [']']) ++ msgRender1 rev rest) := by
        simp [msgRender1, segRender1]
      rw [hsh]
      refine ⟨rfl, ?_, ?_, ?_, ?_⟩ <;>
        exact fun t ht => by
          injection ht with h1 _
          exact absurd h1 (by decide)
    | node d =>
      have hsh : msgRender1 rev (ErrSeg.node d :: rest)
          = 'n' :: ('o' :: 'd' :: 'e' :: ' ' :: d ++ msgRender1 rev rest) := by
        simp [msgRender1, segRender1, nodePat]
      rw [hsh]
      refine ⟨rfl, ?_, ?_, ?_, ?_⟩ <;>
        exact fun t ht => by
          injection ht with h1 _
          exact absurd h1 (by decide)
    | edge cap d1 d2 =>
      have hrest : segsOK false false rest = true := by
        simp only [segsOK, Bool.and_eq_true] at h
        exact h.2
      cases cap with
      | true =>
        have hsh : msgRender1 rev (ErrSeg.edge true d1 d2 :: rest)
            = 'E' :: ('d' :: 'g' :: 'e' :: ' ' :: '(' ::
                (d1 ++ ',' :: ' ' :: (d2 ++ [')'])) ++ msgRender1 rev rest) := by
          simp [msgRender1, segRender1]
        rw [hsh]
        refine ⟨rfl, ?_, ?_, ?_, ?_⟩ <;>
          exact fun t ht => by
            injection ht with h1 _
            exact absurd h1 (by decide)
      | false =>
        have hsh : msgRender1 rev (ErrSeg.edge false d1 d2 :: rest)
            = 'e' :: ('d' :: 'g' :: 'e' :: ' ' :: '(' ::
                (d1 ++ ',' :: ' ' :: (d2 ++ [')'])) ++ msgRender1 rev rest) := by
          simp [msgRender1, segRender1]
        rw [hsh]
        refine ⟨rfl, ?_, ?_, ?_, ?_⟩
        · exact fun t ht => by
            injection ht with h1 _
            exact absurd h1 (by decide)
        · exact fun t ht => by
            injection ht with h1 _
            exact absurd h1 (by decide)
        · exact fun t ht => by
            injection ht with _ h2
            simp only [List.cons_append, List.cons.injEq] at h2
            exact absurd h2.1 (by decide)
        · exact fun t ht => by
            injection ht with h1 _
            exact absurd h1 (by decide)
    | lit s =>
      have hparts : litChunkOK s = true ∧ segsOK (prevWAfter pw s) true rest = true := by
        simp only [segsOK, Bool.and_eq_true] at h
        exact ⟨h.1.1, h.2⟩
      obtain ⟨hne, hall⟩ := litChunkOK_spec hparts.1
      have hrest := hparts.2
      cases s with
      | nil => exact absurd rfl hne
      | cons c0 s1 =>
        have hsh : msgRender1 rev (ErrSeg.lit (c0 :: s1) :: rest)
            = c0 :: (s1 ++ msgRender1 rev rest) := by
          simp [msgRender1, segRender1]
        rw [hsh]
        refine ⟨(litChar_spec (hall c0 (by simp))).2.2, ?_, ?_, ?_, ?_⟩
        · intro t ht
          injection ht with _ h2
          cases s1 with
          | nil =>
            simp only [List.nil_append] at h2
            exact absurd (msgRender1_ne_head rev hrest (by decide) (by decide)
              (by decide) (by decide) h2) (by simp)
          | cons c1 s2 =>
            simp only [List.cons_append] at h2
            injection h2 with _ h3
            cases s2 with
            | nil =>
              simp only [List.nil_append] at h3
              exact absurd (msgRender1_ne_e_space rev hrest h3) (by simp)
            | cons c2 s3 =>
              simp only [List.cons_append] at h3
              injection h3 with _ h4
              cases s3 with
              | nil =>
                simp only [List.nil_append] at h4
                exact absurd (msgRender1_ne_head rev hrest (by decide) (by decide)
                  (by decide) (by decide) h4) (by simp)
              | cons c3 s4 =>
                simp only [List.cons_append] at h4
                injection h4 with _ h5
                rw [← h5]
                exact headDigit_lit_append rev
                  (fun x hx => hall x (by simp [List.mem_cons_of_mem, hx])) hrest
        · intro t ht
          injection ht with _ h2
          cases s1 with
          | nil =>
            simp only [List.nil_append] at h2
            exact absurd (msgRender1_ne_e_space rev hrest h2) (by simp)
          | cons c1 s2 =>
            simp only [List.cons_append] at h2
            injection h2 with _ h3
            cases s2 with
            | nil =>
              simp only [List.nil_append] at h3
              exact absurd (msgRender1_ne_head rev hrest (by decide) (by decide)
                (by decide) (by decide) h3) (by simp)
            | cons c2 s3 =>
              simp only [List.cons_append] at h3
              injection h3 with _ h4
              rw [← h4]
              exact headDigit_lit_append rev
                (fun x hx => hall x (by simp [List.mem_cons_of_mem, hx])) hrest
        · intro t ht
          injection ht with _ h2
          cases s1 with
          | nil =>
            simp only [List.nil_append] at h2
            exact absurd (msgRender1_ne_head rev hrest (by decide) (by decide)
              (by decide) (by decide) h2) (by simp)
          | cons c1 s2 =>
            simp only [List.cons_append] at h2
            injection h2 with _ h3
            rw [← h3]
            exact headDigit_lit_append rev
              (fun x hx => hall x (by simp [List.mem_cons_of_mem, hx])) hrest
        · intro t ht
          injection ht with _ h2
          rw [← h2]
          exact headDigit_lit_append rev
            (fun x hx => hall x (by simp [List.mem_cons_of_mem, hx])) hrest

theorem msgRender2_edgeContFalse (rev : List (Nat × String)) :
    ∀ (segs : List ErrSeg) (pw pl : Bool), segsOK pw pl segs = true →
    edgeContFalse (msgRender2 rev segs) := by
  intro segs pw pl h
  cases segs with
  | nil =>
    exact ⟨rfl, fun t ht => by simp [msgRender2] at ht,
      fun t ht => by simp [msgRender2] at ht,
      fun t ht => by simp [msgRender2] at ht,
      fun t ht => by simp [msgRender2] at ht⟩
  | cons seg rest =>
    cases seg with
    | idx ds =>
      have hsh : msgRender2 rev (ErrSeg.idx ds :: rest)
          = '[' :: ((interChunks (ds.map (idOf rev)) ++ [']']) ++ msgRender2 rev rest) := by
        simp [msgRender2, segRender2]
      rw [hsh]
      refine ⟨rfl, ?_, ?_, ?_, ?_⟩ <;>
        exact fun t ht => by
          injection ht with h1 _
          exact absurd h1 (by decide)
    | node d =>
      have hsh : msgRender2 rev (ErrSeg.node d :: rest)
          = 'n' :: ('o' :: 'd' :: 'e' :: ' ' :: idOf rev d ++ msgRender2 rev rest) := by
        simp [msgRender2, segRender2, nodePat]
      rw [hsh]
      refine ⟨rfl, ?_, ?_, ?_, ?_⟩ <;>
        exact fun t ht => by
          injection ht with h1 _
          exact absurd h1 (by decide)
    | edge cap d1 d2 =>
      cases cap with
      | true =>
        have hsh : msgRender2 rev (ErrSeg.edge true d1 d2 :: rest)
            = 'E' :: ('d' :: 'g' :: 'e' :: ' ' :: '(' ::
                (d1 ++ ',' :: ' ' :: (d2 ++ [')'])) ++ msgRender2 rev rest) := by
          simp [msgRender2, segRender2]
        rw [hsh]
        refine ⟨rfl, ?_, ?_, ?_, ?_⟩ <;>
          exact fun t ht => by
            injection ht with h1 _
            exact absurd h1 (by decide)
      | false =>
        have hsh : msgRender2 rev (ErrSeg.edge false d1 d2 :: rest)
            = 'e' :: ('d' :: 'g' :: 'e' :: ' ' :: '(' ::
                (d1 ++ ',' :: ' ' :: (d2 ++ [')'])) ++ msgRender2 rev rest) := by
          simp [msgRender2, segRender2]
        rw [hsh]
        refine ⟨rfl, ?_, ?_, ?_, ?_⟩
        · exact fun t ht => by
            injection ht with h1 _
            exact absurd h1 (by decide)
        · exact fun t ht => by
            injection ht with h1 _
            exact absurd h1 (by decide)
        · exact fun t ht => by
            injection ht with _ h2
            simp only [List.cons_append, List.cons.injEq] at h2
            exact absurd h2.1 (by decide)
        · exact fun t ht => by
            injection ht with h1 _
            exact absurd h1 (by decide)
    | lit s =>
      have hparts : litChunkOK s = true ∧ segsOK (prevWAfter pw s) true rest = true := by
        simp only [segsOK, Bool.and_eq_true] at h
        exact ⟨h.1.1, h.2⟩
      obtain ⟨hne, hall⟩ := litChunkOK_spec hparts.1
      have hrest := hparts.2
      cases s with
      | nil => exact absurd rfl hne
      | cons c0 s1 =>
        have hsh : msgRender2 rev (ErrSeg.lit (c0 :: s1) :: rest)
            = c0 :: (s1 ++ msgRender2 rev rest) := by
          simp [msgRender2, segRender2]
        rw [hsh]
        refine ⟨?_, ?_, ?_, ?_, ?_⟩
        · simp only [headLParen]
          simp [(litChar_spec (hall c0 (by simp))).2.1]
        · intro t ht
          injection ht with _ h2
          cases s1 with
          | nil =>
            simp only [List.nil_append] at h2
            exact absurd (msgRender2_ne_head rev hrest (by decide) (by decide)
              (by decide) (by decide) h2) (by simp)
          | cons c1 s2 =>
            simp only [List.cons_append] at h2
            injection h2 with _ h3
            cases s2 with
            | nil =>
              simp only [List.nil_append] at h3
              exact absurd (msgRender2_ne_e_space rev hrest h3) (by simp)
            | cons c2 s3 =>
              simp only [List.cons_append] at h3
              injection h3 with _ h4
              cases s3 with
              | nil =>
                simp only [List.nil_append] at h4
                exact absurd (msgRender2_ne_head rev hrest (by decide) (by decide)
                  (by decide) (by decide) h4) (by simp)
              | cons c3 s4 =>
                simp only [List.cons_append] at h4
                injection h4 with _ h5
                rw [← h5]
                exact headLParen_lit_append rev
                  (fun x hx => hall x (by simp [List.mem_cons_of_mem, hx])) hrest
        · intro t ht
          injection ht with _ h2
          cases s1 with
          | nil =>
            simp only [List.nil_append] at h2
            exact absurd (msgRender2_ne_e_space rev hrest h2) (by simp)
          | cons c1 s2 =>
            simp only [List.cons_append] at h2
            injection h2 with _ h3
            cases s2 with
            | nil =>
              simp only [List.nil_append] at h3
              exact absurd (msgRender2_ne_head rev hrest (by decide) (by decide)
                (by decide) (by decide) h3) (by simp)
            | cons c2 s3 =>
              simp only [List.cons_append] at h3
              injection h3 with _ h4
              rw [← h4]
              exact headLParen_lit_append rev
                (fun x hx => hall x (by simp [List.mem_cons_of_mem, hx])) hrest
        · intro t ht
          injection ht with _ h2
          cases s1 with
          | nil =>
            simp only [List.nil_append] at h2
            exact absurd (msgRender2_ne_head rev hrest (by decide) (by decide)
              (by decide) (by decide) h2) (by simp)
          | cons c1 s2 =>
            simp only [List.cons_append] at h2
            injection h2 with _ h3
            rw [← h3]
            exact headLParen_lit_append rev
              (fun x hx => hall x (by simp [List.mem_cons_of_mem, hx])) hrest
        · intro t ht
          injection ht with _ h2
          rw [← h2]
          exact headLParen_lit_append rev
            (fun x hx => hall x (by simp [List.mem_cons_of_mem, hx])) hrest

/-! ## Firing of the three passes on their pattern occurrences -/

theorem headDigit_interTail_bracket (ds : List (List Char)) (T : List Char) :
    headDigit (interTail ds ++ ']' :: T) = false := by
  cases ds with
  | nil => rfl
  | cons d ds2 => rfl

theorem matchListRest_inter : ∀ (ds : List (List Char)) (fuel : Nat)
    (T : List Char) (acc : List Nat),
    (∀ d ∈ ds, digitsChunkOK d = true) →
    (interTail ds).length + 1 ≤ fuel →
    matchListRest fuel (interTail ds ++ ']' :: T) acc
      = some (acc.reverse ++ ds.map digitsToNat, T) := by
  intro ds
  induction ds with
  | nil =>
    intro fuel T acc _ hf
    cases fuel with
    | zero => exact absurd hf (by simp [interTail])
    | succ f => simp [interTail, matchListRest]
  | cons d ds2 ih =>
    intro fuel T acc hds hf
    cases fuel with
    | zero => exact absurd hf (by simp [interTail])
    | succ f =>
      obtain ⟨hdne, hdall⟩ := digitsChunkOK_spec (hds d (by simp))
      cases d with
      | nil => exact absurd rfl hdne
      | cons c0 d1 =>
        have hc0 : c0.isDigit = true := hdall c0 (by simp)
        have hdrop : List.dropWhile isSpaceChar
            ((' ' : Char) :: (c0 :: (d1 ++ (interTail ds2 ++ ']' :: T))))
            = c0 :: (d1 ++ (interTail ds2 ++ ']' :: T)) := by
          rw [List.dropWhile_cons, if_pos (by decide), List.dropWhile_cons,
            if_neg (by simp [isSpaceChar_eq_false_of_digit hc0])]
        have ht : takeDigits (c0 :: (d1 ++ (interTail ds2 ++ ']' :: T)))
            = (c0 :: d1, interTail ds2 ++ ']' :: T) :=
          takeDigits_digits_append hdall (headDigit_interTail_bracket ds2 T)
        have hrec := ih f T (digitsToNat (c0 :: d1) :: acc)
          (fun x hx => hds x (List.mem_cons_of_mem _ hx))
          (by simp only [interTail, List.length_cons, List.length_append] at hf ⊢; omega)
        simp only [interTail, List.append_eq, List.cons_append, List.append_assoc,
          matchListRest]
        rw [hdrop, ht]
        simp [hrec]

theorem matchIndexList_inter (ds : List (List Char)) (T : List Char)
    (hds : ∀ d ∈ ds, digitsChunkOK d = true) (hne : ¬ds = []) :
    matchIndexList (interChunks ds ++ ']' :: T) = some (ds.map digitsToNat, T) := by
  cases ds with
  | nil => exact absurd rfl hne
  | cons d ds2 =>
    obtain ⟨hdne, hdall⟩ := digitsChunkOK_spec (hds d (by simp))
    cases d with
    | nil => exact absurd rfl hdne
    | cons c0 d1 =>
      unfold matchIndexList
      have hshape : interChunks ((c0 :: d1) :: ds2) ++ ']' :: T
          = (c0 :: d1) ++ (interTail ds2 ++ ']' :: T) := by
        simp [interChunks, List.append_assoc]
      rw [hshape,
        takeDigits_digits_append hdall (headDigit_interTail_bracket ds2 T)]
      simp
      rw [matchListRest_inter ds2 _ T _
        (fun x hx => hds x (List.mem_cons_of_mem _ hx)) (by omega)]
      simp

theorem intercalate_go_data : ∀ (as : List String) (acc : String),
    (String.intercalate.go acc ", " as).data
      = acc.data ++ interTail (as.map String.data) := by
  intro as
  induction as with
  | nil => intro acc; simp [String.intercalate.go, interTail]
  | cons a as2 ih =>
    intro acc
    simp only [String.intercalate.go]
    rw [ih]
    have hcs : (", " : String).data = [',', ' '] := rfl
    simp [interTail, data_append, hcs, List.append_assoc]

theorem intercalate_data (ss : List String) :
    (String.intercalate ", " ss).data = interChunks (ss.map String.data) := by
  cases ss with
  | nil => rfl
  | cons a as =>
    simp only [String.intercalate]
    rw [intercalate_go_data]
    simp [interChunks]

theorem rewriteBrackets_idx_fire (rev : List (Nat × String))
    (ds : List (List Char)) (M : List Char) (fuel : Nat)
    (hds : ∀ d ∈ ds, digitsChunkOK d = true) (hne : ¬ds = []) :
    rewriteBrackets rev (fuel + 1) ('[' :: ((interChunks ds ++ [']']) ++ M))
      = ('[' :: (interChunks (ds.map (idOf rev)) ++ [']']))
        ++ rewriteBrackets rev fuel M := by
  simp only [rewriteBrackets, if_true]
  have hshape : (interChunks ds ++ [']']) ++ M = interChunks ds ++ ']' :: M := by
    rw [List.append_assoc]
    rfl
  rw [hshape, matchIndexList_inter ds M hds hne]
  have hbr : ("[" ++ String.intercalate ", "
        ((ds.map digitsToNat).map (lookupOr rev)) ++ "]").data
      = '[' :: (interChunks (ds.map (idOf rev)) ++ [']']) := by
    rw [data_append, data_append, intercalate_data]
    have h1 : ("[" : String).data = ['['] := rfl
    have h2 : ("]" : String).data = [']'] := rfl
    rw [h1, h2]
    have h3 : ((ds.map digitsToNat).map (lookupOr rev)).map String.data
        = ds.map (idOf rev) := by
      simp only [List.map_map]
      rfl
    rw [h3]
    simp
  simp [hbr]
  rw [intercalate_data]
  simp only [List.map_map]
  rfl

theorem rewriteNode_node_fire (rev : List (Nat × String)) (fuel : Nat)
    (d M : List Char) (hd : digitsChunkOK d = true) (hM : headDigit M = false) :
    rewriteNode rev (fuel + 1) false ((nodePat ++ d) ++ M)
      = (nodePat ++ idOf rev d) ++ rewriteNode rev fuel true M := by
  obtain ⟨hne, hall⟩ := digitsChunkOK_spec hd
  have hshape : (nodePat ++ d) ++ M
      = 'n' :: 'o' :: 'd' :: 'e' :: ' ' :: (d ++ M) := by
    simp [nodePat]
  rw [hshape]
  simp only [rewriteNode]
  rw [if_pos (by decide)]
  rw [takeDigits_digits_append hall hM]
  cases d with
  | nil => exact absurd rfl hne
  | cons c0 d1 =>
    show ("node " ++ lookupOr rev (digitsToNat (c0 :: d1))).data
        ++ rewriteNode rev fuel true M
      = (nodePat ++ idOf rev (c0 :: d1)) ++ rewriteNode rev fuel true M
    have hbr : ("node " ++ lookupOr rev (digitsToNat (c0 :: d1))).data
        = nodePat ++ idOf rev (c0 :: d1) := by
      rw [data_append]
      rfl
    rw [hbr]

theorem matchEdgeTail_pair (d1 d2 M : List Char)
    (h1 : digitsChunkOK d1 = true) (h2 : digitsChunkOK d2 = true) :
    matchEdgeTail ('(' :: (d1 ++ ',' :: ' ' :: (d2 ++ ')' :: M)))
      = some (digitsToNat d1, digitsToNat d2, M) := by
  obtain ⟨h1ne, h1all⟩ := digitsChunkOK_spec h1
  obtain ⟨h2ne, h2all⟩ := digitsChunkOK_spec h2
  simp only [matchEdgeTail]
  have ht1 : takeDigits (d1 ++ ',' :: ' ' :: (d2 ++ ')' :: M))
      = (d1, ',' :: ' ' :: (d2 ++ ')' :: M)) :=
    takeDigits_digits_append h1all
      (rfl : headDigit (',' :: ' ' :: (d2 ++ ')' :: M)) = false)
  rw [ht1]
  cases d1 with
  | nil => exact absurd rfl h1ne
  | cons a a1 =>
    cases d2 with
    | nil => exact absurd rfl h2ne
    | cons b b1 =>
      have ht2 : takeDigits (b :: (b1 ++ ')' :: M)) = (b :: b1, ')' :: M) :=
        takeDigits_digits_append h2all (rfl : headDigit (')' :: M) = false)
      simp [ht2]

theorem rewriteEdge_edge_fire (rev : List (Nat × String)) (fuel : Nat)
    (cap : Bool) (d1 d2 M : List Char)
    (h1 : digitsChunkOK d1 = true) (h2 : digitsChunkOK d2 = true) :
    rewriteEdge rev (fuel + 1) false
        (((if cap then 'E' else 'e') :: 'd' :: 'g' :: 'e' :: ' ' :: '(' ::
          (d1 ++ ',' :: ' ' :: (d2 ++ [')']))) ++ M)
      = ((if cap then 'E' else 'e') :: 'd' :: 'g' :: 'e' :: ' ' :: '(' ::
          (idOf rev d1 ++ ',' :: ' ' :: (idOf rev d2 ++ [')'])))
        ++ rewriteEdge rev fuel false M := by
  have hshape : ∀ c : Char, ((c :: 'd' :: 'g' :: 'e' :: ' ' :: '(' ::
        (d1 ++ ',' :: ' ' :: (d2 ++ [')']))) ++ M)
      = c :: 'd' :: 'g' :: 'e' :: ' ' :: '(' ::
        (d1 ++ ',' :: ' ' :: (d2 ++ ')' :: M)) := by
    intro c
    simp [List.append_assoc]
  have hmt := matchEdgeTail_pair d1 d2 M h1 h2
  cases cap with
  | true =>
    rw [if_pos rfl, hshape]
    simp only [rewriteEdge]
    rw [if_pos (by decide), hmt]
    have hbr : (String.singleton 'E' ++ "dge (" ++ lookupOr rev (digitsToNat d1)
          ++ ", " ++ lookupOr rev (digitsToNat d2) ++ ")").data
        = 'E' :: 'd' :: 'g' :: 'e' :: ' ' :: '(' ::
          (idOf rev d1 ++ ',' :: ' ' :: (idOf rev d2 ++ [')'])) := by
      have hs1 : (String.singleton 'E').data = ['E'] := rfl
      have hs2 : ("dge (" : String).data = ['d', 'g', 'e', ' ', '('] := rfl
      have hs3 : (", " : String).data = [',', ' '] := rfl
      have hs4 : (")" : String).data = [')'] := rfl
      simp [data_append, hs1, hs2, hs3, hs4, idOf, List.append_assoc]
    simp [hbr]
  | false =>
    rw [if_neg (by simp), hshape]
    simp only [rewriteEdge]
    rw [if_pos (by decide), hmt]
    have hbr : (String.singleton 'e' ++ "dge (" ++ lookupOr rev (digitsToNat d1)
          ++ ", " ++ lookupOr rev (digitsToNat d2) ++ ")").data
        = 'e' :: 'd' :: 'g' :: 'e' :: ' ' :: '(' ::
          (idOf rev d1 ++ ',' :: ' ' :: (idOf rev d2 ++ [')'])) := by
      have hs1 : (String.singleton 'e').data = ['e'] := rfl
      have hs2 : ("dge (" : String).data = ['d', 'g', 'e', ' ', '('] := rfl
      have hs3 : (", " : String).data = [',', ' '] := rfl
      have hs4 : (")" : String).data = [')'] := rfl
      simp [data_append, hs1, hs2, hs3, hs4, idOf, List.append_assoc]
    simp [hbr]

/-! ## The three passes on rendered well-formed segment lists -/

theorem rewriteBrackets_msg (rev : List (Nat × String)) :
    ∀ (segs : List ErrSeg) (fuel : Nat) (pw pl : Bool),
      segsOK pw pl segs = true →
      rewriteBrackets rev ((msgRender0 segs).length + fuel) (msgRender0 segs)
        = msgRender1 rev segs := by
  intro segs
  induction segs with
  | nil =>
    intro fuel pw pl _
    simp [msgRender0, msgRender1, rewriteBrackets_nil]
  | cons seg rest ih =>
    intro fuel pw pl h
    cases seg with
    | lit s =>
      have hparts : litChunkOK s = true ∧ segsOK (prevWAfter pw s) true rest = true := by
        simp only [segsOK, Bool.and_eq_true] at h
        exact ⟨h.1.1, h.2⟩
      obtain ⟨hne, hall⟩ := litChunkOK_spec hparts.1
      have hchars : ∀ c ∈ s, ¬c = '[' := fun c hc => (litChar_spec (hall c hc)).1
      have hinput : msgRender0 (ErrSeg.lit s :: rest) = s ++ msgRender0 rest := rfl
      rw [hinput]
      have hlen : (s ++ msgRender0 rest).length + fuel
          = s.length + ((msgRender0 rest).length + fuel) := by
        simp [List.length_append]
        omega
      rw [hlen]
      rw [rewriteBrackets_chunk rev s (msgRender0 rest)
        ((msgRender0 rest).length + fuel) hchars]
      rw [ih fuel (prevWAfter pw s) true hparts.2]
      simp [msgRender1, segRender1]
    | idx ds =>
      have hparts : ((¬ds = []) ∧ ∀ d ∈ ds, digitsChunkOK d = true)
          ∧ segsOK false false rest = true := by
        simp only [segsOK, Bool.and_eq_true, Bool.not_eq_true',
          List.isEmpty_eq_false, List.all_eq_true, ne_eq] at h
        exact ⟨⟨h.1.1, h.1.2⟩, h.2⟩
      have hinput : msgRender0 (ErrSeg.idx ds :: rest)
          = ('[' :: (interChunks ds ++ [']'])) ++ msgRender0 rest := rfl
      rw [hinput]
      have hlen : (('[' :: (interChunks ds ++ [']'])) ++ msgRender0 rest).length + fuel
          = ((msgRender0 rest).length + ((interChunks ds).length + 1 + fuel)) + 1 := by
        simp [List.length_append]
        omega
      rw [hlen]
      have hstep : ('[' :: (interChunks ds ++ [']'])) ++ msgRender0 rest
          = '[' :: ((interChunks ds ++ [']']) ++ msgRender0 rest) := rfl
      rw [hstep]
      rw [rewriteBrackets_idx_fire rev ds (msgRender0 rest) _ hparts.1.2 hparts.1.1]
      rw [ih ((interChunks ds).length + 1 + fuel) false false hparts.2]
      simp [msgRender1, segRender1]
    | node d =>
      have hparts : ((!pw) = true ∧ digitsChunkOK d = true)
          ∧ segsOK true false rest = true := by
        simp only [segsOK, Bool.and_eq_true] at h
        exact ⟨h.1, h.2⟩
      obtain ⟨hdne, hdall⟩ := digitsChunkOK_spec hparts.1.2
      have hchars : ∀ c ∈ nodePat ++ d, ¬c = '[' := by
        intro c hc
        rcases List.mem_append.mp hc with hc | hc
        · simp [nodePat] at hc
          rcases hc with rfl | rfl | rfl | rfl | rfl <;> decide
        · exact char_ne_of_isDigit (hdall c hc) (by decide)
      have hinput : msgRender0 (ErrSeg.node d :: rest)
          = (nodePat ++ d) ++ msgRender0 rest := rfl
      rw [hinput]
      have hlen : ((nodePat ++ d) ++ msgRender0 rest).length + fuel
          = (nodePat ++ d).length + ((msgRender0 rest).length + fuel) := by
        simp [List.length_append]
        omega
      rw [hlen]
      rw [rewriteBrackets_chunk rev (nodePat ++ d) (msgRender0 rest)
        ((msgRender0 rest).length + fuel) hchars]
      rw [ih fuel true false hparts.2]
      simp [msgRender1, segRender1]
    | edge cap d1 d2 =>
      have hparts : (((!pw) = true ∧ digitsChunkOK d1 = true)
          ∧ digitsChunkOK d2 = true) ∧ segsOK false false rest = true := by
        simp only [segsOK, Bool.and_eq_true] at h
        exact ⟨h.1, h.2⟩
      obtain ⟨h1ne, h1all⟩ := digitsChunkOK_spec hparts.1.1.2
      obtain ⟨h2ne, h2all⟩ := digitsChunkOK_spec hparts.1.2
      have hchars : ∀ c ∈ segRender0 (ErrSeg.edge cap d1 d2), ¬c = '[' := by
        intro c hc
        simp only [segRender0, List.mem_cons, List.mem_append,
          List.mem_singleton] at hc
        rcases hc with rfl | rfl | rfl | rfl | rfl | rfl | hc | rfl | rfl | hc | (rfl | h0)
        · cases cap <;> decide
        · decide
        · decide
        · decide
        · decide
        · decide
        · exact char_ne_of_isDigit (h1all c hc) (by decide)
        · decide
        · decide
        · exact char_ne_of_isDigit (h2all c hc) (by decide)
        · decide
        · simp at h0
      have hinput : msgRender0 (ErrSeg.edge cap d1 d2 :: rest)
          = segRender0 (ErrSeg.edge cap d1 d2) ++ msgRender0 rest := rfl
      rw [hinput]
      have hlen : (segRender0 (ErrSeg.edge cap d1 d2) ++ msgRender0 rest).length + fuel
          = (segRender0 (ErrSeg.edge cap d1 d2)).length
            + ((msgRender0 rest).length + fuel) := by
        simp [List.length_append]
        omega
      rw [hlen]
      rw [rewriteBrackets_chunk rev (segRender0 (ErrSeg.edge cap d1 d2))
        (msgRender0 rest) ((msgRender0 rest).length + fuel) hchars]
      rw [ih fuel false false hparts.2]
      simp [msgRender1, segRender1, segRender0]

theorem rewriteNode_msg (rev : List (Nat × String)) (hrev : revTokensOK rev = true) :
    ∀ (segs : List ErrSeg) (fuel : Nat) (pwa pw pl : Bool),
      segsOK pw pl segs = true → (pw = false → pwa = false) →
      rewriteNode rev ((msgRender1 rev segs).length + fuel) pwa (msgRender1 rev segs)
        = msgRender2 rev segs := by
  intro segs
  induction segs with
  | nil =>
    intro fuel pwa pw pl _ _
    simp [msgRender1, msgRender2, rewriteNode_nil]
  | cons seg rest ih =>
    intro fuel pwa pw pl h hinv
    cases seg with
    | lit s =>
      have hparts : litChunkOK s = true ∧ segsOK (prevWAfter pw s) true rest = true := by
        simp only [segsOK, Bool.and_eq_true] at h
        exact ⟨h.1.1, h.2⟩
      obtain ⟨hne, hall⟩ := litChunkOK_spec hparts.1
      have hsafe : nodeSafeChunk s (msgRender1 rev rest) = true :=
        nodeSafeChunk_lit s _ hall
          (msgRender1_nodeContFalse rev rest (prevWAfter pw s) true hparts.2)
      have hinput : msgRender1 rev (ErrSeg.lit s :: rest)
          = s ++ msgRender1 rev rest := rfl
      rw [hinput]
      have hlen : (s ++ msgRender1 rev rest).length + fuel
          = s.length + ((msgRender1 rev rest).length + fuel) := by
        simp [List.length_append]
        omega
      rw [hlen]
      rw [rewriteNode_chunk rev s (msgRender1 rev rest)
        ((msgRender1 rev rest).length + fuel) pwa hsafe]
      rw [prevWAfter_nonempty pwa pw hne]
      rw [ih fuel (prevWAfter pw s) (prevWAfter pw s) true hparts.2 (fun hh => hh)]
      simp [msgRender2, segRender2]
    | idx ds =>
      have hparts : ((¬ds = []) ∧ ∀ d ∈ ds, digitsChunkOK d = true)
          ∧ segsOK false false rest = true := by
        simp only [segsOK, Bool.and_eq_true, Bool.not_eq_true',
          List.isEmpty_eq_false, List.all_eq_true, ne_eq] at h
        exact ⟨⟨h.1.1, h.1.2⟩, h.2⟩
      have hsafe : nodeSafeChunk ('[' :: (interChunks (ds.map (idOf rev)) ++ [']']))
          (msgRender1 rev rest) = true :=
        nodeSafeChunk_idxRender _ _ (idOf_all_idCharOK_chunks hrev ds)
      have hinput : msgRender1 rev (ErrSeg.idx ds :: rest)
          = ('[' :: (interChunks (ds.map (idOf rev)) ++ [']'])) ++ msgRender1 rev rest := rfl
      rw [hinput]
      have hlen : (('[' :: (interChunks (ds.map (idOf rev)) ++ [']']))
            ++ msgRender1 rev rest).length + fuel
          = ('[' :: (interChunks (ds.map (idOf rev)) ++ [']'])).length
            + ((msgRender1 rev rest).length + fuel) := by
        simp [List.length_append]
        omega
      rw [hlen]
      rw [rewriteNode_chunk rev _ (msgRender1 rev rest)
        ((msgRender1 rev rest).length + fuel) pwa hsafe]
      have hpw : prevWAfter pwa ('[' :: (interChunks (ds.map (idOf rev)) ++ [']']))
          = false := by
        have hsh : ('[' :: (interChunks (ds.map (idOf rev)) ++ [']']))
            = ('[' :: interChunks (ds.map (idOf rev))) ++ [']'] := rfl
        rw [hsh]
        exact prevWAfter_concat_false _ _ (by decide)
      rw [hpw]
      rw [ih fuel false false false hparts.2 (fun _ => rfl)]
      simp [msgRender2, segRender2]
    | node d =>
      have hparts : ((!pw) = true ∧ digitsChunkOK d = true)
          ∧ segsOK true false rest = true := by
        simp only [segsOK, Bool.and_eq_true] at h
        exact ⟨h.1, h.2⟩
      have hpw : pw = false := by
        have := hparts.1.1
        simp only [Bool.not_eq_true'] at this
        exact this
      have hpwa : pwa = false := hinv hpw
      rw [hpwa]
      have hM : headDigit (msgRender1 rev rest) = false :=
        msgRender1_headDigit rev rest true false hparts.2
      have hinput : msgRender1 rev (ErrSeg.node d :: rest)
          = (nodePat ++ d) ++ msgRender1 rev rest := rfl
      rw [hinput]
      have hlen : ((nodePat ++ d) ++ msgRender1 rev rest).length + fuel
          = ((msgRender1 rev rest).length + (4 + d.length + fuel)) + 1 := by
        simp [nodePat, List.length_append]
        omega
      rw [hlen]
      rw [rewriteNode_node_fire rev _ d (msgRender1 rev rest) hparts.1.2 hM]
      rw [ih (4 + d.length + fuel) true true false hparts.2 (fun hh => hh)]
      simp [msgRender2, segRender2]
    | edge cap d1 d2 =>
      have hparts : (((!pw) = true ∧ digitsChunkOK d1 = true)
          ∧ digitsChunkOK d2 = true) ∧ segsOK false false rest = true := by
        simp only [segsOK, Bool.and_eq_true] at h
        exact ⟨h.1, h.2⟩
      obtain ⟨h1ne, h1all⟩ := digitsChunkOK_spec hparts.1.1.2
      obtain ⟨h2ne, h2all⟩ := digitsChunkOK_spec hparts.1.2
      have hchars : ∀ c ∈ segRender1 rev (ErrSeg.edge cap d1 d2), ¬c = 'n' := by
        intro c hc
        simp only [segRender1, List.mem_cons, List.mem_append,
          List.mem_singleton] at hc
        rcases hc with rfl | rfl | rfl | rfl | rfl | rfl | hc | rfl | rfl | hc | (rfl | h0)
        · cases cap <;> decide
        · decide
        · decide
        · decide
        · decide
        · decide
        · exact char_ne_of_isDigit (h1all c hc) (by decide)
        · decide
        · decide
        · exact char_ne_of_isDigit (h2all c hc) (by decide)
        · decide
        · simp at h0
      have hsafe : nodeSafeChunk (segRender1 rev (ErrSeg.edge cap d1 d2))
          (msgRender1 rev rest) = true :=
        nodeSafeChunk_no_n _ _ hchars
      have hinput : msgRender1 rev (ErrSeg.edge cap d1 d2 :: rest)
          = segRender1 rev (ErrSeg.edge cap d1 d2) ++ msgRender1 rev rest := rfl
      rw [hinput]
      have hlen : (segRender1 rev (ErrSeg.edge cap d1 d2) ++ msgRender1 rev rest).length + fuel
          = (segRender1 rev (ErrSeg.edge cap d1 d2)).length
            + ((msgRender1 rev rest).length + fuel) := by
        simp [List.length_append]
        omega
      rw [hlen]
      rw [rewriteNode_chunk rev _ (msgRender1 rev rest)
        ((msgRender1 rev rest).length + fuel) pwa hsafe]
      have hpw : prevWAfter pwa (segRender1 rev (ErrSeg.edge cap d1 d2)) = false :=
        prevWAfter_edge_render pwa _ d1 d2
      rw [hpw]
      rw [ih fuel false false false hparts.2 (fun _ => rfl)]
      simp [msgRender2, segRender2, segRender1]

theorem rewriteEdge_msg (rev : List (Nat × String)) (hrev : revTokensOK rev = true) :
    ∀ (segs : List ErrSeg) (fuel : Nat) (pwa pw pl : Bool),
      segsOK pw pl segs = true → (pw = false → pwa = false) →
      rewriteEdge rev ((msgRender2 rev segs).length + fuel) pwa (msgRender2 rev segs)
        = msgRender3 rev segs := by
  intro segs
  induction segs with
  | nil =>
    intro fuel pwa pw pl _ _
    simp [msgRender2, msgRender3, rewriteEdge_nil]
  | cons seg rest ih =>
    intro fuel pwa pw pl h hinv
    cases seg with
    | lit s =>
      have hparts : litChunkOK s = true ∧ segsOK (prevWAfter pw s) true rest = true := by
        simp only [segsOK, Bool.and_eq_true] at h
        exact ⟨h.1.1, h.2⟩
      obtain ⟨hne, hall⟩ := litChunkOK_spec hparts.1
      have hsafe : edgeSafeChunk s (msgRender2 rev rest) = true :=
        edgeSafeChunk_lit s _ hall
          (msgRender2_edgeContFalse rev rest (prevWAfter pw s) true hparts.2)
      have hinput : msgRender2 rev (ErrSeg.lit s :: rest)
          = s ++ msgRender2 rev rest := rfl
      rw [hinput]
      have hlen : (s ++ msgRender2 rev rest).length + fuel
          = s.length + ((msgRender2 rev rest).length + fuel) := by
        simp [List.length_append]
        omega
      rw [hlen]
      rw [rewriteEdge_chunk rev s (msgRender2 rev rest)
        ((msgRender2 rev rest).length + fuel) pwa hsafe]
      rw [prevWAfter_nonempty pwa pw hne]
      rw [ih fuel (prevWAfter pw s) (prevWAfter pw s) true hparts.2 (fun hh => hh)]
      simp [msgRender3, segRender3]
    | idx ds =>
      have hparts : ((¬ds = []) ∧ ∀ d ∈ ds, digitsChunkOK d = true)
          ∧ segsOK false false rest = true := by
        simp only [segsOK, Bool.and_eq_true, Bool.not_eq_true',
          List.isEmpty_eq_false, List.all_eq_true, ne_eq] at h
        exact ⟨⟨h.1.1, h.1.2⟩, h.2⟩
      have hsafe : edgeSafeChunk ('[' :: (interChunks (ds.map (idOf rev)) ++ [']']))
          (msgRender2 rev rest) = true :=
        edgeSafeChunk_idxRender _ _ (idOf_all_idCharOK_chunks hrev ds)
      have hinput : msgRender2 rev (ErrSeg.idx ds :: rest)
          = ('[' :: (interChunks (ds.map (idOf rev)) ++ [']'])) ++ msgRender2 rev rest := rfl
      rw [hinput]
      have hlen : (('[' :: (interChunks (ds.map (idOf rev)) ++ [']']))
            ++ msgRender2 rev rest).length + fuel
          = ('[' :: (interChunks (ds.map (idOf rev)) ++ [']'])).length
            + ((msgRender2 rev rest).length + fuel) := by
        simp [List.length_append]
        omega
      rw [hlen]
      rw [rewriteEdge_chunk rev _ (msgRender2 rev rest)
        ((msgRender2 rev rest).length + fuel) pwa hsafe]
      have hpw : prevWAfter pwa ('[' :: (interChunks (ds.map (idOf rev)) ++ [']']))
          = false := by
        have hsh : ('[' :: (interChunks (ds.map (idOf rev)) ++ [']']))
            = ('[' :: interChunks (ds.map (idOf rev))) ++ [']'] := rfl
        rw [hsh]
        exact prevWAfter_concat_false _ _ (by decide)
      rw [hpw]
      rw [ih fuel false false false hparts.2 (fun _ => rfl)]
      simp [msgRender3, segRender3]
    | node d =>
      have hparts : ((!pw) = true ∧ digitsChunkOK d = true)
          ∧ segsOK true false rest = true := by
        simp only [segsOK, Bool.and_eq_true] at h
        exact ⟨h.1, h.2⟩
      have hcont : ∀ t, msgRender2 rev rest = 'd' :: 'g' :: 'e' :: ' ' :: t →
          headLParen t = false :=
        (msgRender2_edgeContFalse rev rest true false hparts.2).2.1
      have hsafe : edgeSafeChunk (nodePat ++ idOf rev d) (msgRender2 rev rest) = true :=
        edgeSafeChunk_append nodePat (edgeSafeChunk_nodePat _)
          (edgeSafeChunk_idchars _ _
            (fun c hc => idOf_all_idCharOK hrev (digitsToNat d) c hc) hcont)
      have hinput : msgRender2 rev (ErrSeg.node d :: rest)
          = (nodePat ++ idOf rev d) ++ msgRender2 rev rest := rfl
      rw [hinput]
      have hlen : ((nodePat ++ idOf rev d) ++ msgRender2 rev rest).length + fuel
          = (nodePat ++ idOf rev d).length + ((msgRender2 rev rest).length + fuel) := by
        simp [List.length_append]
        omega
      rw [hlen]
      rw [rewriteEdge_chunk rev _ (msgRender2 rev rest)
        ((msgRender2 rev rest).length + fuel) pwa hsafe]
      rw [ih fuel (prevWAfter pwa (nodePat ++ idOf rev d)) true false hparts.2
        (fun hh => absurd hh (by decide))]
      simp [msgRender3, segRender3]
    | edge cap d1 d2 =>
      have hparts : (((!pw) = true ∧ digitsChunkOK d1 = true)
          ∧ digitsChunkOK d2 = true) ∧ segsOK false false rest = true := by
        simp only [segsOK, Bool.and_eq_true] at h
        exact ⟨h.1, h.2⟩
      have hpw : pw = false := by
        have := hparts.1.1.1
        simp only [Bool.not_eq_true'] at this
        exact this
      have hpwa : pwa = false := hinv hpw
      rw [hpwa]
      have hinput : msgRender2 rev (ErrSeg.edge cap d1 d2 :: rest)
          = ((if cap then 'E' else 'e') :: 'd' :: 'g' :: 'e' :: ' ' :: '(' ::
              (d1 ++ ',' :: ' ' :: (d2 ++ [')']))) ++ msgRender2 rev rest := rfl
      rw [hinput]
      have hlen : (((if cap then 'E' else 'e') :: 'd' :: 'g' :: 'e' :: ' ' :: '(' ::
              (d1 ++ ',' :: ' ' :: (d2 ++ [')']))) ++ msgRender2 rev rest).length + fuel
          = ((msgRender2 rev rest).length
              + (8 + d1.length + d2.length + fuel)) + 1 := by
        simp [List.length_append]
        omega
      rw [hlen]
      rw [rewriteEdge_edge_fire rev _ cap d1 d2 (msgRender2 rev rest)
        hparts.1.1.2 hparts.1.2]
      rw [ih (8 + d1.length + d2.length + fuel) false false false hparts.2
        (fun _ => rfl)]
      simp [msgRender3, segRender3]

/-! ## Claim theorems -/

/-- C5: `normalize_edge_id` is symmetric in its two endpoints, and
re-normalizing the sorted endpoints of an already-canonical edge id yields
the same id (idempotence). -/
theorem normalize_edge_id_symm_and_idem :
    ∀ a b : String,
      normalize_edge_id a b = normalize_edge_id b a ∧
      normalize_edge_id (if lexLt b.data a.data then b else a)
          (if lexLt b.data a.data then a else b) = normalize_edge_id a b := by
  intro a b
  refine ⟨normalize_edge_id_comm a b, ?_⟩
  by_cases h : lexLt b.data a.data = true
  · rw [if_pos h, if_pos h, normalize_edge_id_comm b a]
  · rw [if_neg h, if_neg h]

/-- C6: `GraphNodeDTO.validate_role_requirements` succeeds exactly on the
three legal (role, measBasis-presence, qubitIndex-presence) rows: input with
basis and qubit index, output with qubit index but no basis, intermediate
with basis but no qubit index; every other triple fails with an error. -/
theorem validate_role_requirements_ok_iff (n : GraphNodeDTO) :
    (validate_role_requirements n).toBool = true ↔
      ((n.role = .input ∧ n.measBasis.isSome = true ∧ n.qubitIndex.isSome = true) ∨
       (n.role = .output ∧ n.measBasis = none ∧ n.qubitIndex.isSome = true) ∨
       (n.role = .intermediate ∧ n.measBasis.isSome = true ∧ n.qubitIndex = none)) := by
  obtain ⟨i, c, r, mb, qi⟩ := n
  cases r <;> cases mb <;> cases qi <;>
    simp [validate_role_requirements, Except.toBool]

/-- C9 counterexample: the three `re.sub` passes run sequentially on the
output of the previous pass, so an id substituted by the bracket pass that
itself reads like a `node <int>` token is rewritten again by the node pass.
Under the reverse map `{3: "node 5", 5: "x"}` the message `"[3]"` translates
to `"[node x]"`, not to the simple per-pattern substitution `"[node 5]"`
the claim describes for every reverse map. -/
theorem translate_error_message_cascade :
    translate_error_message "[3]" [(3, "node 5"), (5, "x")] = "[node x]" ∧
    ¬translate_error_message "[3]" [(3, "node 5"), (5, "x")] = "[node 5]" := by
  exact ⟨rfl, by decide⟩

/-- C9 amended: on every message decomposed into well-formed segments
(literal text without digits, brackets or parentheses, and occurrences of
the three engine patterns at word boundaries) and every reverse map whose
ids are plain tokens (not containing or extending a later pattern, in
particular free of the lowercase letters `o d g e`), the translator
substitutes each bracketed integer list, each `node <int>` token and each
`Edge/edge (<int>, <int>)` token through the reverse map, preserving the
`Edge`/`edge` capitalization, with unmapped indices rendered as the
placeholder `?<index>` (the `lookupOr` fallback inside `idOf`).  Without
the token condition the claim is false (see the cascade counterexample). -/
theorem translate_error_message_segments (rev : List (Nat × String))
    (segs : List ErrSeg) (hrev : revTokensOK rev = true)
    (hsegs : segsOK false false segs = true) :
    translate_error_message (String.mk (msgRender0 segs)) rev
      = String.mk (msgRender3 rev segs) := by
  simp only [translate_error_message]
  rw [rewriteBrackets_msg rev segs 1 false false hsegs]
  rw [rewriteNode_msg rev hrev segs 1 false false false hsegs (fun _ => rfl)]
  rw [rewriteEdge_msg rev hrev segs 1 false false false hsegs (fun _ => rfl)]

/-- Witness for the amended C9 theorem at the spec scenario: the message
`"node 3 conflicts with node 5"` decomposes into the segments
`node 3 / " conflicts with " / node 5`, the reverse map `{3: "n3", 5: "n5"}`
has plain-token ids, and the theorem yields exactly
`"node n3 conflicts with node n5"`. -/
theorem translate_error_message_segments_witness :
    revTokensOK [(3, "n3"), (5, "n5")] = true ∧
    segsOK false false
      [ErrSeg.node ['3'], ErrSeg.lit " conflicts with ".data, ErrSeg.node ['5']] = true ∧
    String.mk (msgRender0
        [ErrSeg.node ['3'], ErrSeg.lit " conflicts with ".data, ErrSeg.node ['5']])
      = "node 3 conflicts with node 5" ∧
    String.mk (msgRender3 [(3, "n3"), (5, "n5")]
        [ErrSeg.node ['3'], ErrSeg.lit " conflicts with ".data, ErrSeg.node ['5']])
      = "node n3 conflicts with node n5" ∧
    translate_error_message
        (String.mk (msgRender0
          [ErrSeg.node ['3'], ErrSeg.lit " conflicts with ".data, ErrSeg.node ['5']]))
        [(3, "n3"), (5, "n5")]
      = String.mk (msgRender3 [(3, "n3"), (5, "n5")]
          [ErrSeg.node ['3'], ErrSeg.lit " conflicts with ".data, ErrSeg.node ['5']]) :=
  ⟨by decide, by decide, by decide, by decide,
    translate_error_message_segments _ _ (by decide) (by decide)⟩

/-- C1 (code bug): on the test suite payload `create_simple_project`, whose
coordinates are 2D, the payload passes DTO validation but `dto_to_graphstate`
fails by reading the absent `z` attribute of a `Coordinate2D` — it does not
lift the coordinate to 3D with a default third component as specified. -/
theorem dto_to_graphstate_2d_attribute_error :
    validateProject simpleProject2D = true ∧
    dto_to_graphstate simpleProject2D =
      .error (.attributeError "Coordinate2D object has no attribute z") := by
  exact ⟨rfl, rfl⟩

/-- C2 counterexample: a payload with two nodes both named "n0" (each node
individually valid) passes DTO validation and reaches the id mapper, which
silently maps "n0" to the index of the last occurrence. -/
theorem validateProject_accepts_duplicate_ids :
    validateProject dupIdProject = true ∧
    (dto_to_graphstate dupIdProject).toOption.map (fun r => pyLookup r.2 "n0")
      = some (some 1) := by
  exact ⟨rfl, rfl⟩

/-- C2 amended: DTO validation checks only the per-node role invariants and
the per-edge id canonicality; it performs no duplicate-node-id check, so any
payload whose nodes and edges individually validate is accepted even when
node ids repeat. -/
theorem validateProject_no_duplicate_id_check (p : ProjectPayloadDTO)
    (hn : ∀ n ∈ p.nodes, (validate_role_requirements n).toBool = true)
    (he : ∀ e ∈ p.edges, (validate_edge_id e).toBool = true) :
    validateProject p = true := by
  simp only [validateProject, Bool.and_eq_true, List.all_eq_true]
  exact ⟨hn, he⟩

/-- Witness for the amended C2 theorem at the duplicate-id payload. -/
theorem validateProject_no_duplicate_id_check_witness :
    validateProject dupIdProject = true :=
  validateProject_no_duplicate_id_check dupIdProject (by decide) (by decide)

/-- C3 counterexample: the schedule endpoint always calls the engine solve
with the hard-coded timeout 60 — a solver that succeeds only at timeout 60
makes the request succeed, and a solver that succeeds at every timeout
except 60 makes the request fail — so the timeout is not a caller-supplied
request parameter. -/
theorem compute_schedule_timeout_not_caller_supplied :
    (compute_schedule
        (fun _ _ _ _ t => if t = 60 then .ok (true, emptyEngineSchedule)
          else .error "unexpected timeout")
        simpleProject3D .MINIMIZE_SPACE).toBool = true ∧
    compute_schedule
        (fun _ _ _ _ t => if t = 60 then .error "timeout was 60"
          else .ok (true, emptyEngineSchedule))
        simpleProject3D .MINIMIZE_SPACE
      = .error (.httpException 400 "Schedule computation failed: timeout was 60") := by
  exact ⟨rfl, rfl⟩

/-- C3 amended: the engine solve behind `/api/schedule` is bounded by the
fixed timeout 60 hard-coded in the router (the request carries no timeout
parameter), and on an engine exception or an unsuccessful solve the request
fails immediately with a reported HTTP 400 error. -/
theorem compute_schedule_fixed_timeout_and_fail_fast
    (solve solve2 : SolveFun) (p : ProjectPayloadDTO) (s : Strategy)
    (hagree : ∀ g xf zf c, solve2 g xf zf c 60 = solve g xf zf c 60) :
    compute_schedule solve2 p s = compute_schedule solve p s ∧
    (∀ g nm, dto_to_graphstate p = .ok (g, nm) →
      (∀ msg, solve g (dto_to_flow p nm).1 (dto_to_flow p nm).2
          { strategy := s } 60 = .error msg →
        compute_schedule solve p s =
          .error (.httpException 400 ("Schedule computation failed: " ++ msg))) ∧
      (∀ st, solve g (dto_to_flow p nm).1 (dto_to_flow p nm).2
          { strategy := s } 60 = .ok (false, st) →
        compute_schedule solve p s =
          .error (.httpException 400 "Schedule computation failed: no solution found"))) := by
  constructor
  · unfold compute_schedule
    cases hg : dto_to_graphstate p with
    | error e => rfl
    | ok gm => simp only [hagree]
  · intro g nm hg
    constructor
    · intro msg hsolve
      simp [compute_schedule, hg, hsolve]
    · intro st hsolve
      simp [compute_schedule, hg, hsolve]

/-- Witness for the amended C3 theorem: two solvers that agree at timeout 60
yield the same response on a concrete request. -/
theorem compute_schedule_fixed_timeout_and_fail_fast_witness :
    compute_schedule (fun _ _ _ _ _ => .error "boom") simpleProject3D .MINIMIZE_SPACE
      = compute_schedule
          (fun _ _ _ _ t => if t = 60 then .error "boom"
            else .ok (true, emptyEngineSchedule))
          simpleProject3D .MINIMIZE_SPACE :=
  (compute_schedule_fixed_timeout_and_fail_fast
    (fun _ _ _ _ t => if t = 60 then .error "boom"
      else .ok (true, emptyEngineSchedule))
    (fun _ _ _ _ _ => .error "boom")
    simpleProject3D .MINIMIZE_SPACE (fun _ _ _ _ => rfl)).1

/-! Timeline renumbering (C8). -/

theorem convertTimeline_length (rev : List (Nat × String)) :
    ∀ (k : Nat) (tl : List EngineTimeSlice),
      (convertTimeline rev k tl).length = tl.length := by
  intro k tl
  induction tl generalizing k with
  | nil => rfl
  | cons ts rest ih => simp [convertTimeline, ih]

theorem convertTimeline_get_time (rev : List (Nat × String)) :
    ∀ (tl : List EngineTimeSlice) (k i : Nat)
      (h : i < (convertTimeline rev k tl).length),
      ((convertTimeline rev k tl).get ⟨i, h⟩).time = ((k + i : Nat) : Int) := by
  intro tl
  induction tl with
  | nil => intro k i h; simp [convertTimeline] at h
  | cons ts rest ih =>
    intro k i h
    cases i with
    | zero => simp [convertTimeline, convertSlice]
    | succ j =>
      have h' : j < (convertTimeline rev (k + 1) rest).length := by
        simpa [convertTimeline] using h
      have := ih (k + 1) j h'
      simp only [convertTimeline, List.get_cons_succ]
      rw [this]
      congr 1
      omega

/-- C8: the forward schedule translator renumbers the timeline sequentially
by position — for an input of k slices it emits exactly k slices whose time
fields are 0, 1, ..., k-1 — regardless of the time labels carried by the
upstream slices. -/
theorem schedule_to_dto_timeline_renumbered
    (p m : List (Nat × Option Int)) (e : List ((Nat × Nat) × Option Int))
    (tl : List EngineTimeSlice) (rev : List (Nat × String)) :
    (schedule_to_dto p m e tl rev).timeline.length = tl.length ∧
    ∀ (i : Nat) (h : i < (schedule_to_dto p m e tl rev).timeline.length),
      ((schedule_to_dto p m e tl rev).timeline.get ⟨i, h⟩).time = (i : Int) := by
  constructor
  · exact convertTimeline_length rev 0 tl
  · intro i h
    have := convertTimeline_get_time rev tl 0 i h
    simpa using this

/-- Witness for the C8 theorem: two upstream slices both labelled time 7 are
renumbered to 0 and 1. -/
theorem schedule_to_dto_timeline_renumbered_witness :
    ((schedule_to_dto [] [] []
        [{ time := 7, prepare_nodes := [], entangle_edges := [], measure_nodes := [] },
         { time := 7, prepare_nodes := [], entangle_edges := [], measure_nodes := [] }]
        []).timeline.get ⟨1, by decide⟩).time = (1 : Int) :=
  (schedule_to_dto_timeline_renumbered [] [] []
    [{ time := 7, prepare_nodes := [], entangle_edges := [], measure_nodes := [] },
     { time := 7, prepare_nodes := [], entangle_edges := [], measure_nodes := [] }]
    []).2 1 (by decide)

/-- C7: the flow translator never raises on an unknown id (it is total): an
xflow/zflow key absent from the forward map is omitted from the translated
result, a target absent from the forward map is omitted from its target set
while known keys and targets are translated, and the sentinel zflow "auto"
yields no manual z-flow (`none`).  The forward map is assumed injective (it
is the ID Mapper's bijection) and the wire flow dict has no duplicate
keys. -/
theorem dto_to_flow_lenient (project : ProjectPayloadDTO)
    (node_map : List (String × Nat))
    (hinj : ∀ q ∈ node_map, ∀ q' ∈ node_map, q.2 = q'.2 → q.1 = q'.1) :
    ((project.flow.zflow = .auto → (dto_to_flow project node_map).2 = none) ∧
     (dto_to_flow project node_map).1 = flowToIndexed project.flow.xflow node_map ∧
     ∀ zf, project.flow.zflow = .manual zf →
       (dto_to_flow project node_map).2 = some (flowToIndexed zf node_map)) ∧
    ∀ flowMap : List (String × List String), (dkeys flowMap).Nodup →
      (∀ i : Nat, hasKey (flowToIndexed flowMap node_map) i = true ↔
        ∃ s ts, (s, ts) ∈ flowMap ∧ pyLookup node_map s = some i) ∧
      (∀ s ts i, (s, ts) ∈ flowMap → pyLookup node_map s = some i →
        pyLookup (flowToIndexed flowMap node_map) i =
          some (ts.filterMap (pyLookup node_map)).toFinset) ∧
      (∀ (ts : List String) (j : Nat),
        j ∈ (ts.filterMap (pyLookup node_map)).toFinset ↔
          ∃ t ∈ ts, pyLookup node_map t = some j) := by
  constructor
  · refine ⟨?_, ?_, ?_⟩
    · intro h; simp [dto_to_flow, h]
    · cases hz : project.flow.zflow <;> simp [dto_to_flow, hz]
    · intro zf h; simp [dto_to_flow, h]
  · intro fm hfm
    have hnodup : ((fm.filterMap (fun p => (pyLookup node_map p.1).map
        (fun i => (i, (p.2.filterMap (pyLookup node_map)).toFinset)))).map
          Prod.fst).Nodup := by
      apply nodup_map_fst_filterMap fm _ hfm
      intro q hq q' hq' k v v' hgq hgq'
      rcases Option.map_eq_some'.mp hgq with ⟨a, ha, heqa⟩
      rcases Option.map_eq_some'.mp hgq' with ⟨a', ha', heqa'⟩
      injection heqa with ha1 _
      injection heqa' with ha2 _
      rw [ha1] at ha
      rw [ha2] at ha'
      exact hinj (q.1, k) (mem_of_pyLookup ha) (q'.1, k) (mem_of_pyLookup ha') rfl
    refine ⟨?_, ?_, ?_⟩
    · intro i
      unfold flowToIndexed
      rw [hasKey_dmap]
      constructor
      · rintro ⟨q, hq, v, hgq⟩
        rcases Option.map_eq_some'.mp hgq with ⟨a, ha, heqa⟩
        injection heqa with ha1 _
        subst ha1
        exact ⟨q.1, q.2, hq, ha⟩
      · rintro ⟨s, ts, hmem, hl⟩
        exact ⟨(s, ts), hmem, (ts.filterMap (pyLookup node_map)).toFinset,
          by simp [hl]⟩
    · intro s ts i hmem hl
      unfold flowToIndexed
      rw [dmap_eq_filterMap _ fm hnodup]
      apply pyLookup_of_mem_nodup hnodup
      exact List.mem_filterMap.mpr ⟨(s, ts), hmem, by simp [hl]⟩
    · intro ts j
      simp [List.mem_toFinset, List.mem_filterMap]

/-- Witness for the C7 theorem on a concrete flow: the unknown key "qq" is
dropped, the known key "n0" is translated, and the unknown target "zz" is
dropped from its target set. -/
theorem dto_to_flow_lenient_witness :
    hasKey (flowToIndexed [("n0", ["n1", "zz"]), ("qq", ["n1"])]
        [("n0", 0), ("n1", 1)]) 5 = false ∧
    pyLookup (flowToIndexed [("n0", ["n1", "zz"]), ("qq", ["n1"])]
        [("n0", 0), ("n1", 1)]) 0
      = some ((["n1", "zz"].filterMap (pyLookup [("n0", 0), ("n1", 1)])).toFinset) := by
  have h := dto_to_flow_lenient
    { name := "w", dimension := 3, nodes := [], edges := [],
      flow := { xflow := [("n0", ["n1", "zz"]), ("qq", ["n1"])], zflow := .auto } }
    [("n0", 0), ("n1", 1)] (by decide)
  have h2 := h.2 [("n0", ["n1", "zz"]), ("qq", ["n1"])] (by decide)
  constructor
  · decide
  · exact h2.2.1 "n0" ["n1", "zz"] 0 (by decide) (by decide)

/-! Graph construction with dangling edge endpoints (C10). -/

theorem addNodes_ok :
    ∀ (nodes : List GraphNodeDTO) (g : GraphState) (m : List (String × Nat)),
      (∀ n ∈ nodes, n.coordinate.is3D = true) →
      ∃ g2 m2, addNodes nodes g m = .ok (g2, m2) ∧
        ∀ s, hasKey m2 s = true ↔
          (hasKey m s = true ∨ s ∈ nodes.map GraphNodeDTO.id) := by
  intro nodes
  induction nodes with
  | nil => intro g m _; exact ⟨g, m, rfl, by simp⟩
  | cons n rest ih =>
    intro g m h3
    cases hc : n.coordinate with
    | dim2 x y =>
      have := h3 n (List.mem_cons_self _ _)
      rw [hc] at this
      simp [CoordinateDTO.is3D] at this
    | dim3 x y z =>
      rcases ih (g.add_physical_node (x, y, z)).1
          (pyDictInsert m n.id (g.add_physical_node (x, y, z)).2)
          (fun n' h' => h3 n' (List.mem_cons_of_mem _ h')) with ⟨g2, m2, heq, hkey⟩
      refine ⟨g2, m2, ?_, ?_⟩
      · simp only [addNodes, hc]
        exact heq
      · intro s
        rw [hkey s, hasKey_pyDictInsert]
        simp only [List.map_cons, List.mem_cons]
        constructor
        · rintro ((hm | rfl) | hmem)
          · exact Or.inl hm
          · exact Or.inr (Or.inl rfl)
          · exact Or.inr (Or.inr hmem)
        · rintro (hm | (rfl | hmem))
          · exact Or.inl (Or.inl hm)
          · exact Or.inl (Or.inr rfl)
          · exact Or.inr hmem

theorem addEdges_error_of_dangling :
    ∀ (edges : List GraphEdgeDTO) (m : List (String × Nat)) (g : GraphState)
      (e : GraphEdgeDTO), e ∈ edges →
      (hasKey m e.source = false ∨ hasKey m e.target = false) →
      ∃ k, addEdges edges m g = .error (.keyError k) := by
  intro edges
  induction edges with
  | nil => intro m g e he _; simp at he
  | cons e0 rest ih =>
    intro m g e he hd
    cases hs : pyLookup m e0.source with
    | none => exact ⟨e0.source, by simp [addEdges, hs]⟩
    | some u =>
      cases ht : pyLookup m e0.target with
      | none => exact ⟨e0.target, by simp [addEdges, hs, ht]⟩
      | some v =>
        have he' : e ∈ rest := by
          rcases List.mem_cons.mp he with rfl | h'
          · rcases hd with h | h
            · rw [hasKey, hs] at h; simp at h
            · rw [hasKey, ht] at h; simp at h
          · exact h'
        rcases ih m (g.add_physical_edge u v) e he' hd with ⟨k, hk⟩
        exact ⟨k, by simp [addEdges, hs, ht, hk]⟩

/-- C10 counterexample: the frozen claim fails on an accepted 2D payload
with a dangling edge — the conversion aborts in the node phase with the
`AttributeError` of C1 before any edge lookup, so the failure is not a
`KeyError`. -/
theorem dangling_edge_2d_accepted_without_keyerror :
    validateProject danglingEdge2DProject = true ∧
    dto_to_graphstate danglingEdge2DProject =
      .error (.attributeError "Coordinate2D object has no attribute z") ∧
    (match dto_to_graphstate danglingEdge2DProject with
      | .error (.keyError _) => true
      | _ => false) = false := by
  exact ⟨rfl, rfl, rfl⟩

/-- C10 amended: the parse-time validator does not check that edge endpoints
name existing nodes — a payload whose nodes and edges individually validate
is accepted even with a dangling endpoint — and for every such accepted
project whose coordinates are 3D the graph construction fails with an
unguarded key lookup (a `KeyError`) when adding that edge; with a 2D
coordinate the node phase fails first with the C1 `AttributeError`, so the
3D restriction is necessary (see the counterexample). -/
theorem dangling_edge_accepted_then_keyerror (p : ProjectPayloadDTO)
    (e : GraphEdgeDTO)
    (hn : ∀ n ∈ p.nodes, (validate_role_requirements n).toBool = true)
    (hed : ∀ e' ∈ p.edges, (validate_edge_id e').toBool = true)
    (h3 : ∀ n ∈ p.nodes, n.coordinate.is3D = true)
    (hmem : e ∈ p.edges)
    (hdangling : e.source ∉ p.nodes.map GraphNodeDTO.id ∨
      e.target ∉ p.nodes.map GraphNodeDTO.id) :
    validateProject p = true ∧
    ∃ k, dto_to_graphstate p = .error (.keyError k) := by
  constructor
  · simp only [validateProject, Bool.and_eq_true, List.all_eq_true]
    exact ⟨hn, hed⟩
  · rcases addNodes_ok p.nodes {} [] h3 with ⟨g2, m2, heq, hkey⟩
    have hdang' : hasKey m2 e.source = false ∨ hasKey m2 e.target = false := by
      rcases hdangling with h | h
      · refine Or.inl ?_
        rw [Bool.eq_false_iff]
        intro hk
        rcases (hkey e.source).mp hk with hm | hm
        · rw [hasKey, pyLookup] at hm; simp at hm
        · exact h hm
      · refine Or.inr ?_
        rw [Bool.eq_false_iff]
        intro hk
        rcases (hkey e.target).mp hk with hm | hm
        · rw [hasKey, pyLookup] at hm; simp at hm
        · exact h hm
    rcases addEdges_error_of_dangling p.edges m2 g2 e hmem hdang' with ⟨k, hk⟩
    exact ⟨k, by simp [dto_to_graphstate, heq, hk]⟩

/-- Witness for the C10 theorem at the concrete dangling-edge payload: the
edge "n0-zz" is canonical, validation accepts the project, and graph
construction raises a key error. -/
theorem dangling_edge_accepted_then_keyerror_witness :
    validateProject danglingEdgeProject = true ∧
    ∃ k, dto_to_graphstate danglingEdgeProject = .error (.keyError k) :=
  dangling_edge_accepted_then_keyerror danglingEdgeProject
    { id := "n0-zz", source := "n0", target := "zz" }
    (by decide) (by decide) (by decide) (by decide) (Or.inr (by decide))

/-! Schedule round trip (C4). -/

theorem dmap_roundtrip {κ₁ κ₂ β : Type} [DecidableEq κ₁] [DecidableEq κ₂]
    (f : κ₁ → Option κ₂) (f' : κ₂ → Option κ₁) (l : List (κ₁ × β))
    (hl : (l.map Prod.fst).Nodup)
    (hsect : ∀ p ∈ l, ∀ k', f p.1 = some k' → f' k' = some p.1) :
    dmap (fun p => (f p.1).map (fun k => (k, p.2)))
        (dmap (fun q => (f' q.1).map (fun i => (i, q.2)))
          (dmap (fun p => (f p.1).map (fun k => (k, p.2))) l))
      = dmap (fun p => (f p.1).map (fun k => (k, p.2))) l := by
  have hinj : ∀ p ∈ l, ∀ p' ∈ l, ∀ k v v',
      (f p.1).map (fun k => (k, p.2)) = some (k, v) →
      (f p'.1).map (fun k => (k, p'.2)) = some (k, v') → p.1 = p'.1 := by
    intro p hp p' hp' k v v' hgp hgp'
    rcases Option.map_eq_some'.mp hgp with ⟨a, ha, heqa⟩
    rcases Option.map_eq_some'.mp hgp' with ⟨a', ha', heqa'⟩
    injection heqa with ha1 _
    injection heqa' with ha2 _
    rw [ha1] at ha
    rw [ha2] at ha'
    have h1 := hsect p hp k ha
    have h2 := hsect p' hp' k ha'
    exact Option.some.inj (h1.symm.trans h2)
  have hnodup1 : ((l.filterMap (fun p => (f p.1).map (fun k => (k, p.2)))).map
      Prod.fst).Nodup :=
    nodup_map_fst_filterMap l _ hl hinj
  have h1 : dmap (fun p => (f p.1).map (fun k => (k, p.2))) l
      = l.filterMap (fun p => (f p.1).map (fun k => (k, p.2))) :=
    dmap_eq_filterMap _ l hnodup1
  have hpt : ∀ p ∈ l,
      (((f p.1).map (fun k => (k, p.2))).bind
        (fun q => (f' q.1).map (fun i => (i, q.2))))
      = if (f p.1).isSome then some p else none := by
    intro p hp
    cases hf : f p.1 with
    | none => simp [hf]
    | some k => simp [hf, hsect p hp k hf]
  have h2 : (l.filterMap (fun p => (f p.1).map (fun k => (k, p.2)))).filterMap
        (fun q => (f' q.1).map (fun i => (i, q.2)))
      = l.filter (fun p => (f p.1).isSome) := by
    rw [List.filterMap_filterMap, filterMap_congr_mem l hpt,
      filterMap_guard_eq_filter]
  have hnodup2 : (((l.filterMap (fun p => (f p.1).map (fun k => (k, p.2)))).filterMap
      (fun q => (f' q.1).map (fun i => (i, q.2)))).map Prod.fst).Nodup := by
    rw [h2]
    exact hl.sublist ((List.filter_sublist l).map Prod.fst)
  have h3 : dmap (fun q => (f' q.1).map (fun i => (i, q.2)))
        (l.filterMap (fun p => (f p.1).map (fun k => (k, p.2))))
      = l.filter (fun p => (f p.1).isSome) := by
    rw [dmap_eq_filterMap _ _ hnodup2, h2]
  have h4 : (l.filter (fun p => (f p.1).isSome)).filterMap
        (fun p => (f p.1).map (fun k => (k, p.2)))
      = l.filterMap (fun p => (f p.1).map (fun k => (k, p.2))) := by
    apply filterMap_filter_eq_filterMap
    intro p
    cases hf : f p.1 <;> simp [hf]
  have hnodup3 : (((l.filter (fun p => (f p.1).isSome)).filterMap
      (fun p => (f p.1).map (fun k => (k, p.2)))).map Prod.fst).Nodup := by
    rw [h4]
    exact hnodup1
  rw [h1, h3, dmap_eq_filterMap _ _ hnodup3, h4, ← h1]

theorem edgeKey_sect (fwd : List (String × Nat)) (rev : List (Nat × String))
    (hinv : ∀ q ∈ rev, pyLookup fwd q.2 = some q.1)
    (hhf : ∀ q ∈ rev, hyphenFree q.2)
    (ab : Nat × Nat) (hab : ab.1 ≤ ab.2) (eid : String)
    (h : edgeKeyForward rev ab = some eid) :
    edgeKeyReverse fwd eid = some ab := by
  unfold edgeKeyForward at h
  cases h1 : pyLookup rev ab.1 with
  | none => rw [h1] at h; simp at h
  | some sa =>
    cases h2 : pyLookup rev ab.2 with
    | none => rw [h1, h2] at h; simp at h
    | some sb =>
      rw [h1, h2] at h
      simp only [Option.some.injEq] at h
      subst h
      have hfa : pyLookup fwd sa = some ab.1 := hinv (ab.1, sa) (mem_of_pyLookup h1)
      have hfb : pyLookup fwd sb = some ab.2 := hinv (ab.2, sb) (mem_of_pyLookup h2)
      have hsa : hyphenFree sa := hhf (ab.1, sa) (mem_of_pyLookup h1)
      have hsb : hyphenFree sb := hhf (ab.2, sb) (mem_of_pyLookup h2)
      unfold edgeKeyReverse
      rw [splitOnHyphen_normalize hsa hsb]
      by_cases hlex : lexLt sb.data sa.data = true
      · rw [if_pos hlex]
        simp [hfa, hfb, min_eq_right hab, max_eq_left hab]
      · rw [if_neg hlex]
        simp [hfa, hfb, min_eq_left hab, max_eq_right hab]

theorem entangleForward_keywise (rev : List (Nat × String)) :
    ∀ p : (Nat × Nat) × Option Int,
      (match pyLookup rev p.1.1, pyLookup rev p.1.2 with
       | some sa, some sb => some (normalize_edge_id sa sb, p.2)
       | _, _ => none)
      = (edgeKeyForward rev p.1).map (fun k => (k, p.2)) := by
  intro p
  unfold edgeKeyForward
  cases pyLookup rev p.1.1 <;> cases pyLookup rev p.1.2 <;> simp

theorem entangleReverse_keywise (fwd : List (String × Nat)) :
    ∀ q : String × Option Int,
      (match splitOnHyphen q.1 with
       | [s0, s1] =>
         match pyLookup fwd s0, pyLookup fwd s1 with
         | some u, some v => some ((min u v, max u v), q.2)
         | _, _ => none
       | _ => none)
      = (edgeKeyReverse fwd q.1).map (fun k => (k, q.2)) := by
  intro q
  unfold edgeKeyReverse
  cases hs : splitOnHyphen q.1 with
  | nil => simp
  | cons s0 r =>
    cases r with
    | nil => simp
    | cons s1 r2 =>
      cases r2 with
      | nil =>
        cases h0 : pyLookup fwd s0 with
        | none => simp [h0]
        | some u =>
          cases h1 : pyLookup fwd s1 with
          | none => simp [h0, h1]
          | some v => simp [h0, h1]
      | cons s2 r3 => simp

/-- C4 counterexample: with forward map `{"a-b": 0, "c": 1}` and its exact
inverse as reverse map, the entangle entry for edge (0, 1) forward-translates
to the edge id "a-b-c", which the reverse translator drops (it splits into
three parts), so forward-reverse-forward does not reproduce the original
wire `ScheduleResultDTO` — the round trip fails when a node id contains the
separator character. -/
theorem schedule_roundtrip_separator_counterexample :
    schedule_to_dto
        (dto_to_schedule (schedule_to_dto [] [] [((0, 1), some 5)] []
          [(0, "a-b"), (1, "c")]) [("a-b", 0), ("c", 1)]).1
        (dto_to_schedule (schedule_to_dto [] [] [((0, 1), some 5)] []
          [(0, "a-b"), (1, "c")]) [("a-b", 0), ("c", 1)]).2.1
        (dto_to_schedule (schedule_to_dto [] [] [((0, 1), some 5)] []
          [(0, "a-b"), (1, "c")]) [("a-b", 0), ("c", 1)]).2.2
        [] [(0, "a-b"), (1, "c")]
      ≠ schedule_to_dto [] [] [((0, 1), some 5)] [] [(0, "a-b"), (1, "c")] := by
  decide

/-- C4 amended: reverse-translating a forward-translated schedule and
forward-translating again over the same maps reproduces the identical wire
`ScheduleResultDTO`, provided the reverse map is the inverse of the forward
node map and no node id in the map contains the separator character `-`
(with an id containing `-` the rebuilt edge id fails to split into two parts
and its entangle entry is dropped, as the counterexample shows).  Engine-side
dicts have no duplicate keys and entangle keys are canonical (min, max)
pairs. -/
theorem schedule_roundtrip
    (fwd : List (String × Nat)) (rev : List (Nat × String))
    (p m : List (Nat × Option Int)) (e : List ((Nat × Nat) × Option Int))
    (tl : List EngineTimeSlice)
    (hinv : ∀ q ∈ rev, pyLookup fwd q.2 = some q.1)
    (hhf : ∀ q ∈ rev, hyphenFree q.2)
    (hp : (dkeys p).Nodup) (hm : (dkeys m).Nodup) (he : (dkeys e).Nodup)
    (hcanon : ∀ x ∈ e, x.1.1 ≤ x.1.2) :
    schedule_to_dto
        (dto_to_schedule (schedule_to_dto p m e tl rev) fwd).1
        (dto_to_schedule (schedule_to_dto p m e tl rev) fwd).2.1
        (dto_to_schedule (schedule_to_dto p m e tl rev) fwd).2.2
        tl rev
      = schedule_to_dto p m e tl rev := by
  have hsectP : ∀ x ∈ p, ∀ s, pyLookup rev x.1 = some s →
      pyLookup fwd s = some x.1 :=
    fun x _ s h => hinv (x.1, s) (mem_of_pyLookup h)
  have hsectM : ∀ x ∈ m, ∀ s, pyLookup rev x.1 = some s →
      pyLookup fwd s = some x.1 :=
    fun x _ s h => hinv (x.1, s) (mem_of_pyLookup h)
  have hsectE : ∀ x ∈ e, ∀ eid, edgeKeyForward rev x.1 = some eid →
      edgeKeyReverse fwd eid = some x.1 :=
    fun x hx => edgeKey_sect fwd rev hinv hhf x.1 (hcanon x hx)
  have hP := dmap_roundtrip (pyLookup rev) (pyLookup fwd) p hp hsectP
  have hM := dmap_roundtrip (pyLookup rev) (pyLookup fwd) m hm hsectM
  have hE := dmap_roundtrip (edgeKeyForward rev) (edgeKeyReverse fwd) e he hsectE
  simp only [schedule_to_dto, dto_to_schedule]
  simp only [ScheduleResultDTO.mk.injEq]
  refine ⟨hP, hM, ?_, trivial⟩
  rw [dmap_congr e (entangleForward_keywise rev),
    dmap_congr _ (entangleReverse_keywise fwd),
    dmap_congr _ (entangleForward_keywise rev)]
  exact hE

/-- Witness for the C4 theorem at a concrete hyphen-free map: the round trip
reproduces the forward-translated schedule exactly. -/
theorem schedule_roundtrip_witness :
    schedule_to_dto
        (dto_to_schedule (schedule_to_dto [(0, some 1)] [(1, some 2)]
          [((0, 1), some 3)] [] [(0, "a"), (1, "b")]) [("a", 0), ("b", 1)]).1
        (dto_to_schedule (schedule_to_dto [(0, some 1)] [(1, some 2)]
          [((0, 1), some 3)] [] [(0, "a"), (1, "b")]) [("a", 0), ("b", 1)]).2.1
        (dto_to_schedule (schedule_to_dto [(0, some 1)] [(1, some 2)]
          [((0, 1), some 3)] [] [(0, "a"), (1, "b")]) [("a", 0), ("b", 1)]).2.2
        [] [(0, "a"), (1, "b")]
      = schedule_to_dto [(0, some 1)] [(1, some 2)] [((0, 1), some 3)] []
          [(0, "a"), (1, "b")] :=
  schedule_roundtrip [("a", 0), ("b", 1)] [(0, "a"), (1, "b")]
    [(0, some 1)] [(1, some 2)] [((0, 1), some 3)] []
    (by decide) (by decide) (by decide) (by decide) (by decide) (by decide)

end GraphQomb
